import Mathlib

/-!
Verification of the task-property-sync core (extraction–aggregation–condition
engine) against its natural-language specification.

The TypeScript sources are shallowly embedded: strings become `List Char`
(one element per Unicode scalar value), nullable strings become
`Option (List Char)`, and the regular expressions of `taskParser.ts` — all of
which are anchored at a fixed marker glyph and built from `\s*`, fixed
character classes and `\d{4}-\d{2}-\d{2}` — are translated into first-match
scanning functions with the same greedy semantics.  None of the regexes
carries the `u` flag, so ECMAScript reads each pattern from its UTF-16 code
units: a character class listing supplementary glyphs excludes their lead
and trail surrogates as separate atoms, which the translation reproduces at
the code-unit level.
-/

set_option maxHeartbeats 1000000

namespace TaskPropertySync

/-- Strings are modelled as lists of Unicode scalar values. -/
abbrev Str := List Char

/-- The character class `\s` of JavaScript regular expressions (also the set
removed by `String.prototype.trim`): tab, line terminators, space and the
Unicode space separators. -/
def isSpace (c : Char) : Bool :=
  c == '\t' || c == '\n' || c == '\u000B' || c == '\u000C' || c == '\r' ||
  c == ' ' || c == ' ' || c == ' ' ||
  (0x2000 ≤ c.toNat && c.toNat ≤ 0x200A) ||
  c == ' ' || c == ' ' || c == ' ' || c == ' ' ||
  c == '　' || c == '﻿'

/-- JavaScript line terminators: the characters `.` does not match. -/
def isLineTerm (c : Char) : Bool :=
  c == '\n' || c == '\r' || c == ' ' || c == ' '

/-- Decimal digit, the class `\d`. -/
def isDigit (c : Char) : Bool := '0' ≤ c && c ≤ '9'

/-- Left trim: drop the leading whitespace run. -/
def ltrimChars (l : Str) : Str := l.dropWhile isSpace

/-- Right trim: drop the trailing whitespace run. -/
def rtrimChars (l : Str) : Str := (l.reverse.dropWhile isSpace).reverse

/-- `String.prototype.trim`. -/
def trimChars (l : Str) : Str := rtrimChars (ltrimChars l)

/-! Marker glyphs of `taskParser.ts`. -/

/-- UTF-16 encoding of one character, as JavaScript strings store it. -/
def utf16Char (c : Char) : List Nat :=
  if c.toNat < 0x10000 then [c.toNat]
  else [0xD800 + (c.toNat - 0x10000) / 0x400, 0xDC00 + (c.toNat - 0x10000) % 0x400]

/-- The UTF-16 code units excluded by the negated class of `RECURRENCE_REGEX`
(`[^📅⏳🛫➕✅⏫🔼🔽⏬🆔]`).  The regex carries no `u` flag, so ECMAScript
reads the class from the pattern's UTF-16 code units: each supplementary
glyph contributes its lead and trail surrogates as two separate class atoms.
The excluded units are the five BMP glyphs `⏳ ➕ ✅ ⏫ ⏬`, the lead
surrogates `0xD83D` (from `📅 🛫 🔼 🔽`) and `0xD83C` (from `🆔`), and the
five trail surrogates of the supplementary glyphs. -/
def recExcludedUnit (u : Nat) : Bool :=
  u == 0xD83D || u == 0xD83C || u == 0x23F3 || u == 0x2795 || u == 0x2705 ||
  u == 0x23EB || u == 0x23EC || u == 0xDCC5 || u == 0xDEEB || u == 0xDD3C ||
  u == 0xDD3D || u == 0xDD94

/-- One character-level step of the class run `[^📅⏳🛫➕✅⏫🔼🔽⏬🆔]*`: the
run continues over a character exactly when none of its UTF-16 code units is
excluded, so it stops before the five BMP glyphs and before every character
whose encoding carries an excluded surrogate — in particular before every
character in the block U+1F000–U+1F7FF (whose lead surrogate is `0xD83C` or
`0xD83D`), which contains `🔁`, `🔺` and unrelated emoji such as `😀`.
(When the first excluded unit is a trail surrogate whose lead is not itself
excluded — e.g. U+1F994 with lead `0xD83E` and trail `0xDD94` — the engine's
run additionally keeps that character's lone lead surrogate, an ill-formed
UTF-16 string with no counterpart among scalar sequences; over scalar
sequences the run stops before such a character.) -/
def recBoundary (c : Char) : Bool := (utf16Char c).any recExcludedUnit

/-- Shape of the fixed-width capture `\d{4}-\d{2}-\d{2}`: exactly ten
characters, four digits, a hyphen, two digits, a hyphen, two digits. -/
def wfDate (v : Str) : Bool :=
  match v with
  | [y1, y2, y3, y4, h1, m1, m2, h2, d1, d2] =>
    isDigit y1 && isDigit y2 && isDigit y3 && isDigit y4 && h1 == '-' &&
    isDigit m1 && isDigit m2 && h2 == '-' && isDigit d1 && isDigit d2
  | _ => false

/-- Tail of the date-marker regexes: after the glyph, `\s*(\d{4}-\d{2}-\d{2})`.
The greedy `\s*` consumes the whitespace run; the capture is the next ten
characters when they have the date shape. -/
def dateAt (cs : Str) : Option Str :=
  if wfDate ((cs.dropWhile isSpace).take 10) then
    some ((cs.dropWhile isSpace).take 10)
  else none

/-- `extractMatch` applied to one of the five date regexes
(`/g \s*(\d{4}-\d{2}-\d{2})/` for a marker glyph `g`): the capture of the
first (leftmost) full match, or `none`.  A match can only start at an
occurrence of `g`, so scanning glyph occurrences left to right is exactly
the JavaScript first-match semantics. -/
def extractMatchDate (g : Char) : Str → Option Str
  | [] => none
  | c :: cs =>
    if c = g then
      match dateAt cs with
      | some d => some d
      | none => extractMatchDate g cs
    else extractMatchDate g cs

/-- `extractMatch` applied to `RECURRENCE_REGEX`
(`/🔁\s*([^📅⏳🛫➕✅⏫🔼🔽⏬🆔]*)/`): at the first `🔁`, the greedy `\s*`
consumes the whitespace run and the flagless class captures up to the first
character containing an excluded code unit (or end).  The match always
succeeds at the first `🔁` since the capture may be empty; the match can
only start at a `🔁` because its lead surrogate `0xD83D` occurs only as the
first unit of a supplementary character and its trail `0xDD01` determines
the scalar. -/
def extractRecurrenceCapture : Str → Option Str
  | [] => none
  | c :: cs =>
    if c = '🔁' then
      some ((cs.dropWhile isSpace).takeWhile (fun x => !recBoundary x))
    else extractRecurrenceCapture cs

/-- `extractPriority`: presence tests of the five priority glyphs in the
fixed order highest → high → medium → low → lowest. -/
def extractPriority (text : Str) : Option Str :=
  if text.contains '🔺' then some "highest".toList
  else if text.contains '⏫' then some "high".toList
  else if text.contains '🔼' then some "medium".toList
  else if text.contains '🔽' then some "low".toList
  else if text.contains '⏬' then some "lowest".toList
  else none

/-- Length of the matched span of a date regex tail (the `\s*` run plus the
ten date characters), used to remove the first match. -/
def dateSpan (cs : Str) : Option Nat :=
  match dateAt cs with
  | some _ => some ((cs.takeWhile isSpace).length + 10)
  | none => none

/-- `String.replace` (no `g` flag) with a date regex and the empty string:
removes the first full match, if any. -/
def removeFirstDate (g : Char) : Str → Str
  | [] => []
  | c :: cs =>
    if c = g then
      match dateSpan cs with
      | some n => cs.drop n
      | none => c :: removeFirstDate g cs
    else c :: removeFirstDate g cs

/-- `String.replace` with `RECURRENCE_REGEX` and the empty string: removes
the first `🔁`, its whitespace run and the captured span. -/
def removeFirstRecurrence : Str → Str
  | [] => []
  | c :: cs =>
    if c = '🔁' then (cs.dropWhile isSpace).dropWhile (fun x => !recBoundary x)
    else c :: removeFirstRecurrence cs

/-- `String.replace` with a single-glyph regex and the empty string:
removes the first occurrence of the glyph. -/
def removeFirstChar (g : Char) : Str → Str
  | [] => []
  | c :: cs => if c = g then cs else c :: removeFirstChar g cs

/-- `String.replace(/\s+/g, " ")`: each maximal whitespace run collapses to a
single space.  The boolean records whether the previous character was
whitespace. -/
def collapseWs : Bool → Str → Str
  | _, [] => []
  | prevSp, c :: cs =>
    if isSpace c then
      if prevSp then collapseWs true cs else ' ' :: collapseWs true cs
    else c :: collapseWs false cs

/-- `extractDescription`: remove the first match of each marker pattern in
the source's fixed order, collapse whitespace runs, trim. -/
def extractDescription (taskContent : Str) : Str :=
  trimChars (collapseWs false
    (removeFirstChar '⏬'
      (removeFirstChar '🔽'
        (removeFirstChar '🔼'
          (removeFirstChar '⏫'
            (removeFirstChar '🔺'
              (removeFirstRecurrence
                (removeFirstDate '✅'
                  (removeFirstDate '➕'
                    (removeFirstDate '🛫'
                      (removeFirstDate '⏳'
                        (removeFirstDate '📅' taskContent))))))))))))

/-- The task record produced by `parseTaskLine` (interface `ParsedTask`). -/
structure ParsedTask where
  line : Str
  lineNumber : Nat
  isDone : Bool
  description : Str
  dueDate : Option Str
  scheduledDate : Option Str
  startDate : Option Str
  createdDate : Option Str
  doneDate : Option Str
  recurrence : Option Str
  priority : Option Str
  status : Char
deriving DecidableEq

/-- The match of `TASK_CHECKBOX_REGEX` (`/^(\s*[-*]\s*\[(.)\])\s*(.*)/`) on a
line, returning the status character (group 2) and the trimmed task content
(group 3 trimmed, as in `parseTaskLine`).  Group 3 is `(.*)`, which stops at
line terminators; the status `(.)` must not be a terminator.  (`(.)`
matches a single UTF-16 code unit, so the program additionally rejects a
supplementary status character, whose trail surrogate cannot match `\]`;
this embedding accepts such a character — a benign over-approximation, as
every status character below uses BMP characters.) -/
def matchTaskCheckbox (line : Str) : Option (Char × Str) :=
  match line.dropWhile isSpace with
  | [] => none
  | c :: r2 =>
    if c == '-' || c == '*' then
      match r2.dropWhile isSpace with
      | '[' :: s :: ']' :: rest =>
        if isLineTerm s then none
        else some (s, trimChars ((rest.dropWhile isSpace).takeWhile (fun x => !isLineTerm x)))
      | _ => none
    else none

/-- The stored recurrence field, the source's
`recurrence ? recurrence.trim() : null`: an empty capture is falsy and
stored as `null`; a non-empty capture is trimmed. -/
def recStored (taskContent : Str) : Option Str :=
  match extractRecurrenceCapture taskContent with
  | none => none
  | some [] => none
  | some r => some (trimChars r)

/-- `parseTaskLine`: parse one line into a task record, or `none` when the
line does not match the checkbox shape. -/
def parseTaskLine (line : Str) (lineNumber : Nat) : Option ParsedTask :=
  match matchTaskCheckbox line with
  | none => none
  | some (statusChar, taskContent) =>
    some {
      line := line
      lineNumber := lineNumber
      isDone := statusChar == 'x' || statusChar == 'X'
      description := extractDescription taskContent
      dueDate := extractMatchDate '📅' taskContent
      scheduledDate := extractMatchDate '⏳' taskContent
      startDate := extractMatchDate '🛫' taskContent
      createdDate := extractMatchDate '➕' taskContent
      doneDate := extractMatchDate '✅' taskContent
      recurrence := recStored taskContent
      priority := extractPriority taskContent
      status := statusChar }

/-- `parseTasks`: split the document on newlines and parse each line with its
index, keeping the successfully parsed ones in order. -/
def parseTasks (content : Str) : List ParsedTask :=
  (content.splitOn '\n').enum.filterMap (fun p => parseTaskLine p.2 p.1)

/-- `getTaskPropertyValue`: the property accessor.  `status` is returned as a
one-character string; an unknown property name yields `none`. -/
def getTaskPropertyValue (task : ParsedTask) (property : String) : Option Str :=
  match property with
  | "due_date" => task.dueDate
  | "scheduled_date" => task.scheduledDate
  | "start_date" => task.startDate
  | "created_date" => task.createdDate
  | "done_date" => task.doneDate
  | "recurrence" => task.recurrence
  | "priority" => task.priority
  | "status" => some [task.status]
  | "description" => some task.description
  | _ => none

/-! Condition evaluator and filter (`operations.ts`). -/

/-- A filter condition (interface `Condition`; the `id` field plays no role
in evaluation and is omitted). -/
structure Condition where
  property : String
  operator : String
  value : Str
deriving DecidableEq

/-- UTF-16 code-unit sequence of a string. -/
def utf16Str (s : Str) : List Nat := (s.map utf16Char).flatten

/-- Whether `sub` occurs at the front of `l`. -/
def startsWith : Str → Str → Bool
  | [], _ => true
  | _ :: _, [] => false
  | a :: as, b :: bs => a == b && startsWith as bs

/-- The JavaScript `String.prototype.includes`: `sub` occurs somewhere in
`l` as a contiguous substring. -/
def includesSub (sub : Str) : Str → Bool
  | [] => sub.isEmpty
  | c :: cs => startsWith sub (c :: cs) || includesSub sub cs

/-- Lexicographic order on code-unit sequences. -/
def jsLtUnits : List Nat → List Nat → Bool
  | [], [] => false
  | [], _ :: _ => true
  | _ :: _, [] => false
  | a :: as, b :: bs => if a < b then true else if b < a then false else jsLtUnits as bs

/-- The JavaScript `<` relation on strings: lexicographic comparison of
UTF-16 code units. -/
def jsLtStr (a b : Str) : Bool := jsLtUnits (utf16Str a) (utf16Str b)

/-- The JavaScript `<=` relation on strings. -/
def jsLeStr (a b : Str) : Bool := !jsLtStr b a

/-- `evaluateCondition`: one condition against one task.  `===`/`!==` on a
nullable string and a string compare `Option Str` against `some`;
`includes` is substring containment; the ordering operators return `false`
on an absent value; an unrecognized operator falls through the `switch` to
`return true`. -/
def evaluateCondition (task : ParsedTask) (condition : Condition) : Bool :=
  let taskValue := getTaskPropertyValue task condition.property
  let condValue := condition.value
  match condition.operator with
  | "equals" => taskValue == some condValue
  | "not_equals" => taskValue != some condValue
  | "contains" =>
    match taskValue with
    | some v => includesSub condValue v
    | none => false
  | "not_contains" =>
    match taskValue with
    | some v => !includesSub condValue v
    | none => true
  | "is_empty" =>
    match taskValue with
    | some v => v == []
    | none => true
  | "is_not_empty" =>
    match taskValue with
    | some v => v != []
    | none => false
  | "greater_than" =>
    match taskValue with
    | some v => jsLtStr condValue v
    | none => false
  | "less_than" =>
    match taskValue with
    | some v => jsLtStr v condValue
    | none => false
  | "greater_or_equal" =>
    match taskValue with
    | some v => jsLeStr condValue v
    | none => false
  | "less_or_equal" =>
    match taskValue with
    | some v => jsLeStr v condValue
    | none => false
  | _ => true

/-- `filterTasksByConditions`: with no conditions the input is returned
unchanged; otherwise keep the tasks satisfying all (`AND`) or at least one
(otherwise) of the conditions.  The combination mode is the source's string
comparison `logic === "AND"`. -/
def filterTasksByConditions (tasks : List ParsedTask) (conditions : List Condition)
    (logic : String) : List ParsedTask :=
  if conditions = [] then tasks
  else
    tasks.filter (fun task =>
      if logic = "AND" then conditions.all (fun cond => evaluateCondition task cond)
      else conditions.any (fun cond => evaluateCondition task cond))

/-! Aggregation engine (`operations.ts`). -/

/-- Decimal representation of a natural number, `String(n)`. -/
def strOfNat (n : Nat) : Str := (Nat.repr n).toList

/-- `getPropertyValues`: the non-null non-empty values of a property, in
task order. -/
def getPropertyValues (tasks : List ParsedTask) (property : String) : List Str :=
  tasks.filterMap (fun t =>
    match getTaskPropertyValue t property with
    | some v => if v = [] then none else some v
    | none => none)

/-- Insertion of a string into a list sorted ascending by the JavaScript
string order. -/
def insertSortedJs (x : Str) : List Str → List Str
  | [] => [x]
  | y :: ys => if jsLeStr x y then x :: y :: ys else y :: insertSortedJs x ys

/-- `values.sort()`: the ascending reordering of the values under the
JavaScript string order.  Any correct sort produces the same list, because
elements comparing equal under this total order are identical strings. -/
def sortJs (l : List Str) : List Str := l.foldr insertSortedJs []

/-- `computeMin`: first element of the sorted value list, absent when the
value list is empty. -/
def computeMin (tasks : List ParsedTask) (property : String) : Option Str :=
  let values := getPropertyValues tasks property
  if values = [] then none else (sortJs values).head?

/-- `computeMax`: last element of the sorted value list, absent when empty. -/
def computeMax (tasks : List ParsedTask) (property : String) : Option Str :=
  let values := getPropertyValues tasks property
  if values = [] then none else (sortJs values).getLast?

/-- `computeCount`: size of the value list as a numeric string. -/
def computeCount (tasks : List ParsedTask) (property : String) : Str :=
  strOfNat (getPropertyValues tasks property).length

/-- `computePercentageDone`: `Math.round((doneCount / tasks.length) * 100)`
as a numeric string, `"0"` on an empty list.  `Math.round` rounds half
toward positive infinity, modelled exactly on rationals as
`(200 * done + n) / (2 * n)` in integer division. -/
def computePercentageDone (tasks : List ParsedTask) : Str :=
  if tasks.length = 0 then "0".toList
  else
    strOfNat ((200 * (tasks.filter (fun t => t.isDone)).length + tasks.length) /
      (2 * tasks.length))

/-- `computeList`: the value list joined with `", "`, absent when empty. -/
def computeList (tasks : List ParsedTask) (property : String) : Option Str :=
  let values := getPropertyValues tasks property
  if values = [] then none else some (List.intercalate ", ".toList values)

/-- `computeFirst`: the first non-null non-empty property value in task
order, scanning with early return. -/
def computeFirst (tasks : List ParsedTask) (property : String) : Option Str :=
  tasks.findSome? (fun t =>
    match getTaskPropertyValue t property with
    | some v => if v = [] then none else some v
    | none => none)

/-- `computeLast`: like `computeFirst` but scanning from the end. -/
def computeLast (tasks : List ParsedTask) (property : String) : Option Str :=
  tasks.reverse.findSome? (fun t =>
    match getTaskPropertyValue t property with
    | some v => if v = [] then none else some v
    | none => none)

/-- `executeOperation`: dispatch on the operation name, after the early
`if (tasks.length === 0) return null`.  An unrecognized operation name
yields `none`. -/
def executeOperation (tasks : List ParsedTask) (taskProperty operation : String) :
    Option Str :=
  if tasks.length = 0 then none
  else
    match operation with
    | "min" => computeMin tasks taskProperty
    | "max" => computeMax tasks taskProperty
    | "count" => some (computeCount tasks taskProperty)
    | "count_all" => some (strOfNat tasks.length)
    | "count_done" => some (strOfNat (tasks.filter (fun t => t.isDone)).length)
    | "count_open" => some (strOfNat (tasks.filter (fun t => !t.isDone)).length)
    | "percentage_done" => some (computePercentageDone tasks)
    | "list" => computeList tasks taskProperty
    | "first" => computeFirst tasks taskProperty
    | "last" => computeLast tasks taskProperty
    | _ => none

/-! Direct mappings (`processor.ts`). -/

/-- A direct mapping (interface `DirectMapping`; the `id` field is omitted). -/
structure DirectMapping where
  taskProperty : String
  frontmatterKey : String
  overwriteExisting : Bool
  enabled : Bool
deriving DecidableEq

/-- One frontmatter update request, as pushed by the processor. -/
structure UpdateRequest where
  key : String
  value : Str
  overwriteExisting : Bool
deriving DecidableEq

/-- `TaskPropertyProcessor.processDirectMapping`: scan the tasks in order and
push a single update for the first non-null non-empty value of the source
property, then break; no update when no task yields such a value. -/
def processDirectMapping (mapping : DirectMapping) :
    List ParsedTask → List UpdateRequest
  | [] => []
  | task :: rest =>
    match getTaskPropertyValue task mapping.taskProperty with
    | some v =>
      if v ≠ [] then [⟨mapping.frontmatterKey, v, mapping.overwriteExisting⟩]
      else processDirectMapping mapping rest
    | none => processDirectMapping mapping rest

/-! Fixed name vocabularies, read off the `switch` statements of the source. -/

/-- The nine property names of `getTaskPropertyValue`. -/
def knownProperties : List String :=
  ["due_date", "scheduled_date", "start_date", "created_date", "done_date",
   "recurrence", "priority", "status", "description"]

/-- The ten operation names of `executeOperation`. -/
def knownOperations : List String :=
  ["min", "max", "count", "count_all", "count_done", "count_open",
   "percentage_done", "list", "first", "last"]

/-- The ten operator names of `evaluateCondition`. -/
def knownOperators : List String :=
  ["equals", "not_equals", "contains", "not_contains", "is_empty",
   "is_not_empty", "greater_than", "less_than", "greater_or_equal",
   "less_or_equal"]

/-! Claim C1.  The aggregation engine on an empty task collection. -/

/-- C1: on an empty (unfiltered) task collection, `executeOperation` returns
absent for EVERY operation — including `count_all`, `count_done`,
`count_open` and `percentage_done`, for which the claim (and the spec)
promise the numeric string `"0"`.  The early return
`if (tasks.length === 0) return null` fires before the `switch`, so the
counting operations never see an empty list; the claim's second half
(min, max, count, list, first, last absent on empty input) does hold. -/
theorem c1_executeOperation_empty_always_absent (prop op : String) :
    executeOperation [] prop op = none := rfl

/-! Claim C9.  Filtering with an empty condition sequence. -/

/-- C9: `filterTasksByConditions` with an empty condition list returns the
input task list unchanged, for every combination mode. -/
theorem c9_filter_empty_conditions_identity (tasks : List ParsedTask) (logic : String) :
    filterTasksByConditions tasks [] logic = tasks := rfl

/-! Claim C5.  Semantics of `not_equals` and `equals`. -/

/-- C5: a `not_equals` condition holds exactly when the property value is
absent or textually different from the literal, and an `equals` condition
holds exactly when the value is present and textually equal to the
literal. -/
theorem c5_not_equals_equals_semantics (task : ParsedTask) (prop : String) (lit : Str) :
    (evaluateCondition task ⟨prop, "not_equals", lit⟩ = true ↔
      getTaskPropertyValue task prop = none ∨
        ∃ v, getTaskPropertyValue task prop = some v ∧ v ≠ lit) ∧
    (evaluateCondition task ⟨prop, "equals", lit⟩ = true ↔
      ∃ v, getTaskPropertyValue task prop = some v ∧ v = lit) := by
  have h1 : evaluateCondition task ⟨prop, "not_equals", lit⟩ =
      (getTaskPropertyValue task prop != some lit) := rfl
  have h2 : evaluateCondition task ⟨prop, "equals", lit⟩ =
      (getTaskPropertyValue task prop == some lit) := rfl
  rw [h1, h2]
  cases h : getTaskPropertyValue task prop with
  | none =>
    refine ⟨⟨fun _ => Or.inl rfl, fun _ => rfl⟩, ⟨fun hc => ?_, fun ⟨v, hv, _⟩ => ?_⟩⟩
    · exact absurd hc Bool.false_ne_true
    · exact Option.noConfusion hv
  | some v =>
    constructor
    · rw [bne_iff_ne]
      constructor
      · intro hne
        exact Or.inr ⟨v, rfl, fun he => hne (by rw [he])⟩
      · rintro (hc | ⟨w, hw, hne⟩) he
        · exact Option.noConfusion hc
        · exact hne (by injection hw.symm.trans he)
    · rw [beq_iff_eq]
      constructor
      · intro he
        exact ⟨v, rfl, by injection he⟩
      · rintro ⟨w, hw, rfl⟩
        injection hw with hw2
        rw [hw2]

/-! Claim C2.  Unknown configuration names. -/

/-- Fixed sample document used to exercise the pipeline on concrete input. -/
def c2Doc : Str := "- [ ] hello".toList

/-- A condition whose operator name is outside the fixed vocabulary. -/
def c2BogusCond : Condition := ⟨"status", "matches", "x".toList⟩

/-- A condition the sample task does not satisfy. -/
def c2EqCond : Condition := ⟨"status", "equals", "x".toList⟩

/-- C2 counterexample: a condition with an unknown operator does NOT
contribute "no applicable result" — `evaluateCondition` falls through the
`switch` to `return true`, a definite boolean outcome.  Under OR
combination, a filter containing the unknown-operator condition keeps a task
that matches no other condition, whereas dropping that condition filters the
task out. -/
theorem c2_unknown_operator_counterexample :
    (parseTasks c2Doc).all (fun t => evaluateCondition t c2BogusCond) = true ∧
    filterTasksByConditions (parseTasks c2Doc) [c2BogusCond, c2EqCond] "OR" =
      parseTasks c2Doc ∧
    filterTasksByConditions (parseTasks c2Doc) [c2EqCond] "OR" = [] ∧
    parseTasks c2Doc ≠ [] := by
  refine ⟨by decide, by decide, by decide, by decide⟩

/-- C2 amended: an unknown property name and an unknown operation name both
yield absent (and the total functions of the embedding raise nothing), but a
condition with an unknown operator evaluates to `true` (vacuously
satisfied) rather than contributing no result. -/
theorem c2_amended_unknown_names :
    (∀ (task : ParsedTask) (prop : String),
      prop ∉ knownProperties → getTaskPropertyValue task prop = none) ∧
    (∀ (tasks : List ParsedTask) (prop op : String),
      op ∉ knownOperations → executeOperation tasks prop op = none) ∧
    (∀ (task : ParsedTask) (cond : Condition),
      cond.operator ∉ knownOperators → evaluateCondition task cond = true) := by
  refine ⟨?_, ?_, ?_⟩
  · intro task prop h
    unfold getTaskPropertyValue
    split <;> simp_all [knownProperties]
  · intro tasks prop op h
    unfold executeOperation
    by_cases hl : tasks.length = 0
    · simp [hl]
    · simp only [hl, if_false]
      split <;> simp_all [knownOperations]
  · intro task cond h
    unfold evaluateCondition
    split <;> simp_all [knownOperators]

/-- A fixed concrete task record used to instantiate universally quantified
theorems. -/
def wTask : ParsedTask :=
  { line := "- [ ] hello".toList, lineNumber := 0, isDone := false,
    description := "hello".toList, dueDate := none, scheduledDate := none,
    startDate := none, createdDate := none, doneDate := none,
    recurrence := none, priority := none, status := ' ' }

/-- Witness for the amended C2 at concrete unknown names. -/
theorem c2_amended_unknown_names_witness :
    getTaskPropertyValue wTask "priority_level" = none ∧
    executeOperation [wTask] "priority" "sum" = none ∧
    evaluateCondition wTask ⟨"status", "matches", "x".toList⟩ = true :=
  ⟨c2_amended_unknown_names.1 wTask "priority_level" (by decide),
   c2_amended_unknown_names.2.1 [wTask] "priority" "sum" (by decide),
   c2_amended_unknown_names.2.2 wTask ⟨"status", "matches", "x".toList⟩ (by decide)⟩

/-! Claim C10.  count_done + count_open = count_all. -/

/-- Splitting a list by a boolean predicate preserves the total length. -/
theorem length_filter_add_length_filter_not (p : ParsedTask → Bool)
    (l : List ParsedTask) :
    (l.filter p).length + (l.filter (fun a => !p a)).length = l.length := by
  induction l with
  | nil => rfl
  | cons a l ih =>
    by_cases h : p a <;> simp [List.filter_cons, h, ← ih] <;> omega

/-- C10: on every non-empty task list, `count_done` and `count_open` produce
numeric strings whose integer values sum to the value produced by
`count_all`. -/
theorem c10_count_done_open_sum_to_all (tasks : List ParsedTask) (prop : String)
    (h : tasks ≠ []) :
    ∃ d o : Nat,
      executeOperation tasks prop "count_done" = some (strOfNat d) ∧
      executeOperation tasks prop "count_open" = some (strOfNat o) ∧
      executeOperation tasks prop "count_all" = some (strOfNat (d + o)) := by
  refine ⟨(tasks.filter (fun t => t.isDone)).length,
          (tasks.filter (fun t => !t.isDone)).length, ?_, ?_, ?_⟩ <;>
    simp [executeOperation, List.length_eq_zero, h,
      length_filter_add_length_filter_not]

/-- Witness for C10 on a concrete one-task list. -/
theorem c10_count_done_open_sum_to_all_witness :
    ∃ d o : Nat,
      executeOperation [wTask] "priority" "count_done" = some (strOfNat d) ∧
      executeOperation [wTask] "priority" "count_open" = some (strOfNat o) ∧
      executeOperation [wTask] "priority" "count_all" = some (strOfNat (d + o)) :=
  c10_count_done_open_sum_to_all [wTask] "priority" (by decide)

/-! Claim C6.  Direct mappings resolve to the first non-empty value. -/

/-- The spec's description of the direct-mapping resolver: the value of the
first task in order whose source property yields a non-absent, non-empty
value. -/
def firstNonEmptyValue (prop : String) (tasks : List ParsedTask) : Option Str :=
  tasks.findSome? (fun t =>
    match getTaskPropertyValue t prop with
    | some v => if v = [] then none else some v
    | none => none)

/-- C6: `processDirectMapping` emits exactly one update carrying the first
non-absent non-empty value of the source property when one exists, and no
update otherwise — never more than one update. -/
theorem c6_direct_mapping_first_match (m : DirectMapping) (tasks : List ParsedTask) :
    processDirectMapping m tasks =
      (match firstNonEmptyValue m.taskProperty tasks with
       | some v => [⟨m.frontmatterKey, v, m.overwriteExisting⟩]
       | none => []) ∧
    (processDirectMapping m tasks).length ≤ 1 := by
  have key : processDirectMapping m tasks =
      (match firstNonEmptyValue m.taskProperty tasks with
       | some v => [⟨m.frontmatterKey, v, m.overwriteExisting⟩]
       | none => []) := by
    induction tasks with
    | nil => rfl
    | cons t ts ih =>
      simp only [processDirectMapping, firstNonEmptyValue, List.findSome?_cons]
      cases hv : getTaskPropertyValue t m.taskProperty with
      | none => exact ih
      | some v =>
        by_cases he : v = []
        · simp only [he, if_pos rfl, ite_true, ne_eq, not_true_eq_false, if_false]
          exact ih
        · simp [he]
  refine ⟨key, ?_⟩
  rw [key]
  cases firstNonEmptyValue m.taskProperty tasks <;> simp

/-! Claim C7.  Priority precedence by fixed check order. -/

/-- The fixed check list of `extractPriority`, in source order. -/
def priorityChecks : List (Char × Str) :=
  [('🔺', "highest".toList), ('⏫', "high".toList), ('🔼', "medium".toList),
   ('🔽', "low".toList), ('⏬', "lowest".toList)]

/-- C7: the extracted priority is the first entry of the fixed check list
highest → high → medium → low → lowest whose glyph occurs anywhere in the
content (an existence check), and the result is invariant under swapping
the two halves of the content — position in the text is irrelevant. -/
theorem c7_priority_fixed_check_order :
    (∀ text : Str, extractPriority text =
      (priorityChecks.find? (fun pc => text.contains pc.1)).map (fun pc => pc.2)) ∧
    (∀ l r : Str, extractPriority (l ++ r) = extractPriority (r ++ l)) := by
  have hc : ∀ (l r : Str) (g : Char), (l ++ r).contains g = (r ++ l).contains g := by
    intro l r g
    rw [Bool.eq_iff_iff]
    simp only [List.contains, List.elem_iff, List.mem_append]
    exact Or.comm
  constructor
  · intro text
    by_cases h1 : '🔺' ∈ text <;> by_cases h2 : '⏫' ∈ text <;>
      by_cases h3 : '🔼' ∈ text <;> by_cases h4 : '🔽' ∈ text <;>
      by_cases h5 : '⏬' ∈ text <;>
      simp [extractPriority, priorityChecks, h1, h2, h3, h4, h5, List.find?]
  · intro l r
    simp only [extractPriority, hc l r]

/-! Claim C3.  The recurrence capture and its trimming. -/

/-- The recognized marker glyphs of the spec's fixed vocabulary: the five
date glyphs and the five priority glyphs (the boundary set the claim
asserts for the recurrence capture). -/
def recognizedMarkerGlyph (c : Char) : Bool :=
  (['📅', '⏳', '🛫', '➕', '✅', '🔺', '⏫', '🔼', '🔽', '⏬'] : Str).contains c

/-- The recurrence field as the claim states it: from the first recurrence
glyph, capture all text up to the next recognized marker glyph or end of
content, trim, and normalize empty-after-trim to absent. -/
def claimRecurrenceStored (content : Str) : Option Str :=
  match claimCapture content with
  | none => none
  | some cap => if trimChars cap = [] then none else some (trimChars cap)
where
  claimCapture : Str → Option Str
    | [] => none
    | c :: cs =>
      if c = '🔁' then some (cs.takeWhile (fun x => !recognizedMarkerGlyph x))
      else claimCapture cs

/-- Line exhibiting the divergence: `😀` (U+1F600) is no recognized marker
glyph, but its lead surrogate `0xD83D` is excluded by the flagless class
of `RECURRENCE_REGEX`, so the code's capture stops before it. -/
def c3Line : Str := "- [ ] 🔁 every week 😀 ok".toList

/-- C3 counterexample: on `- [ ] 🔁 every week 😀 ok` the parser stores
the recurrence `"every week"` — the capture stops at `😀`, which is not a
recognized marker glyph — while the claim's boundary (the next recognized
marker glyph or end of content) yields `"every week 😀 ok"`. -/
theorem c3_recurrence_boundary_counterexample :
    (parseTaskLine c3Line 0).map (fun t => t.recurrence) =
      some (some "every week".toList) ∧
    claimRecurrenceStored "🔁 every week 😀 ok".toList =
      some "every week 😀 ok".toList ∧
    ("every week".toList : Str) ≠ "every week 😀 ok".toList := by
  refine ⟨by decide, by decide, by decide⟩

/-- The amended capture, following the spec's wording but with the code's
actual boundary: from the first `🔁`, all text up to the first character
containing a code unit of the flagless class `[📅⏳🛫➕✅⏫🔼🔽⏬🆔]`
(decoded per UTF-16 code unit, so in particular up to any character in
U+1F000–U+1F7FF) or end of content. -/
def amendedRecurrenceCapture : Str → Option Str
  | [] => none
  | c :: cs =>
    if c = '🔁' then some (cs.takeWhile (fun x => !recBoundary x))
    else amendedRecurrenceCapture cs

/-- Elements of a `takeWhile` satisfy the predicate. -/
theorem mem_takeWhile_sat {p : Char → Bool} {l : Str} {a : Char}
    (h : a ∈ l.takeWhile p) : p a = true := by
  induction l with
  | nil => cases h
  | cons c cs ih =>
    by_cases hp : p c
    · rw [List.takeWhile_cons, if_pos hp] at h
      rcases List.mem_cons.mp h with rfl | h2
      · exact hp
      · exact ih h2
    · rw [List.takeWhile_cons, if_neg hp] at h
      cases h

/-- `takeWhile` passes over an all-satisfying front segment. -/
theorem takeWhile_append_all {p : Char → Bool} {A : Str} (B : Str)
    (h : ∀ a ∈ A, p a = true) :
    (A ++ B).takeWhile p = A ++ B.takeWhile p := by
  induction A with
  | nil => rfl
  | cons c cs ih =>
    simp only [List.cons_append, List.takeWhile_cons,
      h c (List.mem_cons_self c cs), if_pos]
    rw [ih (fun a ha => h a (List.mem_cons_of_mem c ha))]

/-- `dropWhile` consumes an all-satisfying front segment. -/
theorem dropWhile_append_all {p : Char → Bool} {A : Str} (B : Str)
    (h : ∀ a ∈ A, p a = true) :
    (A ++ B).dropWhile p = B.dropWhile p := by
  induction A with
  | nil => rfl
  | cons c cs ih =>
    simp only [List.cons_append, List.dropWhile_cons,
      h c (List.mem_cons_self c cs), if_pos]
    exact ih (fun a ha => h a (List.mem_cons_of_mem c ha))

/-- Whitespace characters are not boundaries of the recurrence class run:
every JavaScript whitespace character is a single BMP code unit outside the
excluded set. -/
theorem space_not_recBoundary {c : Char} (h : isSpace c = true) :
    recBoundary c = false := by
  simp only [isSpace, Bool.or_eq_true, Bool.and_eq_true, beq_iff_eq,
    decide_eq_true_eq, or_assoc] at h
  rcases h with rfl | rfl | rfl | rfl | rfl | rfl | rfl | rfl | ⟨h1, h2⟩ |
    rfl | rfl | rfl | rfl | rfl | rfl
  all_goals try decide
  unfold recBoundary utf16Char
  rw [if_pos (show c.toNat < 0x10000 by omega)]
  simp only [List.any_cons, List.any_nil, Bool.or_false]
  cases hb : recExcludedUnit c.toNat
  · rfl
  · exfalso
    simp only [recExcludedUnit, Bool.or_eq_true, beq_iff_eq, or_assoc] at hb
    rcases hb with h3 | h3 | h3 | h3 | h3 | h3 | h3 | h3 | h3 | h3 | h3 | h3 <;>
      omega

/-- The head of a `dropWhile` result falsifies the predicate. -/
theorem dropWhile_head_false {p : Char → Bool} {l : Str} {c : Char} {cs : Str}
    (h : l.dropWhile p = c :: cs) : p c = false := by
  induction l with
  | nil => cases h
  | cons a l ih =>
    rw [List.dropWhile_cons] at h
    by_cases hp : p a
    · rw [if_pos hp] at h
      exact ih h
    · rw [if_neg hp] at h
      cases h
      cases hpc : p c
      · rfl
      · exact absurd hpc hp

/-- Right trim keeps a list whose head is not whitespace non-empty. -/
theorem rtrim_cons_ne_nil {d : Char} {ds : Str} (h : isSpace d = false) :
    rtrimChars (d :: ds) ≠ [] := by
  intro hnil
  unfold rtrimChars at hnil
  rw [List.reverse_eq_nil_iff] at hnil
  have hall : ∀ a ∈ (d :: ds).reverse, isSpace a = true := by
    intro a ha
    by_contra hna
    have : (d :: ds).reverse.dropWhile isSpace ≠ [] := by
      intro h2
      have := List.dropWhile_eq_nil_iff.mp h2 a ha
      exact hna this
    exact this hnil
  have := hall d (by simp)
  rw [this] at h
  cases h

/-- Left-trimming is unaffected by an all-whitespace front segment, hence so
is the full trim. -/
theorem trim_ws_front {W D : Str} (h : ∀ a ∈ W, isSpace a = true) :
    trimChars (W ++ D) = trimChars D := by
  unfold trimChars ltrimChars
  rw [dropWhile_append_all D h]

/-- The code's first-`🔁` scan and the amended capture find the same marker;
the code capture additionally skips the greedy `\s*` run. -/
theorem amended_code_capture_rel (cs : Str) :
    (amendedRecurrenceCapture cs = none ∧ extractRecurrenceCapture cs = none) ∨
    (∃ rest : Str, amendedRecurrenceCapture cs =
        some (rest.takeWhile (fun x => !recBoundary x)) ∧
      extractRecurrenceCapture cs =
        some ((rest.dropWhile isSpace).takeWhile (fun x => !recBoundary x))) := by
  induction cs with
  | nil => exact Or.inl ⟨rfl, rfl⟩
  | cons c cs ih =>
    by_cases hc : c = '🔁'
    · subst hc
      exact Or.inr ⟨cs, by simp [amendedRecurrenceCapture],
        by simp [extractRecurrenceCapture]⟩
    · rcases ih with ⟨h1, h2⟩ | ⟨rest, h1, h2⟩
      · exact Or.inl ⟨by simp [amendedRecurrenceCapture, hc, h1],
          by simp [extractRecurrenceCapture, hc, h2]⟩
      · exact Or.inr ⟨rest, by simp [amendedRecurrenceCapture, hc, h1],
          by simp [extractRecurrenceCapture, hc, h2]⟩

/-- C3 amended: for every task line whose content contains the recurrence
marker, the stored recurrence field equals the amended capture (bounded by
the code's class decoded per UTF-16 code unit) after trimming, and is
absent exactly when that capture is empty after trimming. -/
theorem c3_recurrence_trim_amended (line : Str) (n : Nat) (t : ParsedTask)
    (s : Char) (content cap : Str)
    (hcb : matchTaskCheckbox line = some (s, content))
    (hp : parseTaskLine line n = some t)
    (hcap : amendedRecurrenceCapture content = some cap) :
    t.recurrence = if trimChars cap = [] then none else some (trimChars cap) := by
  unfold parseTaskLine at hp
  rw [hcb] at hp
  have ht : t.recurrence =
      (match extractRecurrenceCapture content with
       | none => none
       | some [] => none
       | some r => some (trimChars r)) := by
    cases hp
    rfl
  rcases amended_code_capture_rel content with ⟨h1, _⟩ | ⟨rest, h1, h2⟩
  · rw [h1] at hcap
    cases hcap
  · rw [h1] at hcap
    injection hcap with hcap
    subst hcap
    rw [h2] at ht
    have hW : ∀ a ∈ rest.takeWhile isSpace, isSpace a = true :=
      fun a ha => mem_takeWhile_sat ha
    have hrest : rest.takeWhile isSpace ++ rest.dropWhile isSpace = rest :=
      List.takeWhile_append_dropWhile isSpace rest
    have hsplit : rest.takeWhile (fun x => !recBoundary x) =
        rest.takeWhile isSpace ++
          (rest.dropWhile isSpace).takeWhile (fun x => !recBoundary x) := by
      conv_lhs => rw [← hrest]
      exact takeWhile_append_all _ (fun a ha => by
        rw [space_not_recBoundary (hW a ha)]
        rfl)
    have htrim : trimChars (rest.takeWhile (fun x => !recBoundary x)) =
        trimChars ((rest.dropWhile isSpace).takeWhile (fun x => !recBoundary x)) := by
      rw [hsplit]
      exact trim_ws_front hW
    rw [htrim]
    cases hCe : (rest.dropWhile isSpace).takeWhile (fun x => !recBoundary x) with
    | nil =>
      rw [hCe] at ht
      rw [ht]
      rfl
    | cons d ds =>
      have hd : isSpace d = false := by
        cases hXe : rest.dropWhile isSpace with
        | nil => rw [hXe] at hCe; cases hCe
        | cons x xs =>
          have hx : isSpace x = false := dropWhile_head_false hXe
          rw [hXe, List.takeWhile_cons] at hCe
          by_cases hbx : (!recBoundary x) = true
          · rw [if_pos hbx] at hCe
            injection hCe with h3 _
            rw [← h3]
            exact hx
          · rw [if_neg hbx] at hCe
            cases hCe
      have htC : trimChars (d :: ds) ≠ [] := by
        unfold trimChars ltrimChars
        rw [List.dropWhile_cons, hd]
        simp only [Bool.false_eq_true, if_false]
        exact rtrim_cons_ne_nil hd
      rw [hCe] at ht
      rw [ht, if_neg htC]

/-- Line for the amended-C3 witness, the spec's own round-trip scenario. -/
def c3wLine : Str := "- [ ] 🔁 every week 📅 2025-05-01".toList

/-- Witness for the amended C3 on a concrete line: capture ` every week `
(up to the due-date glyph), stored as the trimmed `every week`. -/
theorem c3_recurrence_trim_amended_witness :
    ((parseTaskLine c3wLine 0).get (by decide)).recurrence =
      (if trimChars " every week ".toList = [] then none
       else some (trimChars " every week ".toList)) :=
  c3_recurrence_trim_amended c3wLine 0 ((parseTaskLine c3wLine 0).get (by decide))
    ' ' "🔁 every week 📅 2025-05-01".toList " every week ".toList
    (by decide) (by decide) (by decide)

/-! Claim C4.  The description strips markers. -/

/-- The length of a `dropWhile` result never exceeds the input length. -/
theorem dropWhile_len_le (p : Char → Bool) (l : Str) :
    (l.dropWhile p).length ≤ l.length := by
  induction l with
  | nil => exact Nat.le_refl 0
  | cons c cs ih =>
    rw [List.dropWhile_cons]
    by_cases hp : p c
    · rw [if_pos hp]
      exact Nat.le_succ_of_le ih
    · rw [if_neg hp]

/-- Removal of every occurrence of a date-marker pattern, as the claim
states it: like the global-flag `String.replace`, scanning resumes after
each removed match.  Fuel-based recursion (each step consumes at least one
character, so the input length is always enough fuel); keeps the
definition computable by the kernel. -/
def removeAllDateF (g : Char) : Nat → Str → Str
  | _, [] => []
  | 0, l => l
  | fuel + 1, c :: cs =>
    if c = g then
      match dateSpan cs with
      | some n => removeAllDateF g fuel (cs.drop n)
      | none => c :: removeAllDateF g fuel cs
    else c :: removeAllDateF g fuel cs

/-- Removal of every occurrence of a date-marker pattern. -/
def removeAllDate (g : Char) (l : Str) : Str := removeAllDateF g l.length l

/-- Removal of every recurrence-marker match, as the claim states it;
fuel-based like `removeAllDateF`. -/
def removeAllRecurrenceF : Nat → Str → Str
  | _, [] => []
  | 0, l => l
  | fuel + 1, c :: cs =>
    if c = '🔁' then
      removeAllRecurrenceF fuel
        ((cs.dropWhile isSpace).dropWhile (fun x => !recBoundary x))
    else c :: removeAllRecurrenceF fuel cs

/-- Removal of every recurrence-marker match. -/
def removeAllRecurrence (l : Str) : Str := removeAllRecurrenceF l.length l

/-- Removal of every occurrence of a single glyph. -/
def removeAllChar (g : Char) (l : Str) : Str := l.filter (fun c => !(c == g))

/-- The description as the claim states it: EVERY occurrence of each marker
pattern removed (in the source's order), whitespace runs collapsed,
trimmed. -/
def claimDescription (content : Str) : Str :=
  trimChars (collapseWs false
    (removeAllChar '⏬'
      (removeAllChar '🔽'
        (removeAllChar '🔼'
          (removeAllChar '⏫'
            (removeAllChar '🔺'
              (removeAllRecurrence
                (removeAllDate '✅'
                  (removeAllDate '➕'
                    (removeAllDate '🛫'
                      (removeAllDate '⏳'
                        (removeAllDate '📅' content))))))))))))

/-- Line with two due-date markers, exposing the first-occurrence-only
behavior of `String.replace` without the `g` flag. -/
def c4Line : Str := "- [ ] a 📅 2024-01-01 📅 2024-01-02".toList

/-- C4 counterexample: with two due-date markers on one line, the code
removes only the first match of the due-date pattern, so the second marker
survives into the description; removing every occurrence as the claim
states would leave `a`. -/
theorem c4_description_every_occurrence_counterexample :
    (parseTaskLine c4Line 0).map (fun t => t.description) =
      some "a 📅 2024-01-02".toList ∧
    claimDescription "a 📅 2024-01-01 📅 2024-01-02".toList = "a".toList ∧
    ("a 📅 2024-01-02".toList : Str) ≠ "a".toList :=
  ⟨by decide, by decide, by decide⟩

/-- First match of a date-marker pattern as a position and a span length,
the spec-level notion of "the first occurrence of the pattern". -/
def findDateMatch (g : Char) : Str → Option (Nat × Nat)
  | [] => none
  | c :: cs =>
    if c = g then
      match dateSpan cs with
      | some n => some (0, n + 1)
      | none => (findDateMatch g cs).map (fun q => (q.1 + 1, q.2))
    else (findDateMatch g cs).map (fun q => (q.1 + 1, q.2))

/-- First recurrence-marker match as a position and a span length. -/
def findRecurMatch : Str → Option (Nat × Nat)
  | [] => none
  | c :: cs =>
    if c = '🔁' then
      some (0, 1 + (cs.takeWhile isSpace).length +
        ((cs.dropWhile isSpace).takeWhile (fun x => !recBoundary x)).length)
    else (findRecurMatch cs).map (fun q => (q.1 + 1, q.2))

/-- First occurrence of a single glyph. -/
def findCharIdx (g : Char) : Str → Option Nat
  | [] => none
  | c :: cs => if c = g then some 0 else (findCharIdx g cs).map (fun i => i + 1)

/-- Excision of `n` characters starting at position `i`. -/
def spliceOut (l : Str) (i n : Nat) : Str := l.take i ++ l.drop (i + n)

/-- `dropWhile` drops exactly the length of the `takeWhile` run. -/
theorem dropWhile_eq_drop_len (p : Char → Bool) (l : Str) :
    l.dropWhile p = l.drop (l.takeWhile p).length := by
  induction l with
  | nil => rfl
  | cons c cs ih =>
    rw [List.dropWhile_cons, List.takeWhile_cons]
    by_cases hp : p c
    · rw [if_pos hp, if_pos hp, List.length_cons, List.drop_succ_cons, ih]
    · rw [if_neg hp, if_neg hp]
      rfl

/-- The source's first-match date removal excises the first match span. -/
theorem removeFirstDate_eq_splice (g : Char) (l : Str) :
    removeFirstDate g l =
      (match findDateMatch g l with
       | some q => spliceOut l q.1 q.2
       | none => l) := by
  induction l with
  | nil => rfl
  | cons c cs ih =>
    simp only [removeFirstDate, findDateMatch]
    by_cases hc : c = g
    · rw [if_pos hc, if_pos hc]
      cases hs : dateSpan cs with
      | some n =>
        simp only [spliceOut, List.take_zero, List.nil_append, Nat.zero_add,
          List.drop_succ_cons]
      | none =>
        rw [ih]
        cases hf : findDateMatch g cs with
        | none => rfl
        | some q =>
          show c :: (cs.take q.1 ++ cs.drop (q.1 + q.2)) =
            (c :: cs).take (q.1 + 1) ++ (c :: cs).drop (q.1 + 1 + q.2)
          have h2 : q.1 + 1 + q.2 = (q.1 + q.2) + 1 := by omega
          rw [h2, List.take_succ_cons, List.drop_succ_cons, List.cons_append]
    · rw [if_neg hc, if_neg hc, ih]
      cases hf : findDateMatch g cs with
      | none => rfl
      | some q =>
        show c :: (cs.take q.1 ++ cs.drop (q.1 + q.2)) =
          (c :: cs).take (q.1 + 1) ++ (c :: cs).drop (q.1 + 1 + q.2)
        have h2 : q.1 + 1 + q.2 = (q.1 + q.2) + 1 := by omega
        rw [h2, List.take_succ_cons, List.drop_succ_cons, List.cons_append]

/-- The source's first-match recurrence removal excises the first match
span. -/
theorem removeFirstRecurrence_eq_splice (l : Str) :
    removeFirstRecurrence l =
      (match findRecurMatch l with
       | some q => spliceOut l q.1 q.2
       | none => l) := by
  induction l with
  | nil => rfl
  | cons c cs ih =>
    simp only [removeFirstRecurrence, findRecurMatch]
    by_cases hc : c = '🔁'
    · rw [if_pos hc, if_pos hc]
      show (cs.dropWhile isSpace).dropWhile (fun x => !recBoundary x) =
        spliceOut (c :: cs) 0 (1 + (cs.takeWhile isSpace).length +
          ((cs.dropWhile isSpace).takeWhile (fun x => !recBoundary x)).length)
      simp only [spliceOut, List.take_zero, List.nil_append, Nat.zero_add]
      have harith : 1 + (cs.takeWhile isSpace).length +
          ((cs.dropWhile isSpace).takeWhile (fun x => !recBoundary x)).length =
          ((cs.takeWhile isSpace).length +
            ((cs.dropWhile isSpace).takeWhile (fun x => !recBoundary x)).length) + 1 := by
        omega
      rw [harith, List.drop_succ_cons,
        dropWhile_eq_drop_len (fun x => !recBoundary x) (cs.dropWhile isSpace),
        dropWhile_eq_drop_len isSpace cs, List.drop_drop]
    · rw [if_neg hc, if_neg hc, ih]
      cases hf : findRecurMatch cs with
      | none => rfl
      | some q =>
        show c :: (cs.take q.1 ++ cs.drop (q.1 + q.2)) =
          (c :: cs).take (q.1 + 1) ++ (c :: cs).drop (q.1 + 1 + q.2)
        have h2 : q.1 + 1 + q.2 = (q.1 + q.2) + 1 := by omega
        rw [h2, List.take_succ_cons, List.drop_succ_cons, List.cons_append]

/-- The source's first-match glyph removal excises the first occurrence. -/
theorem removeFirstChar_eq_splice (g : Char) (l : Str) :
    removeFirstChar g l =
      (match findCharIdx g l with
       | some i => spliceOut l i 1
       | none => l) := by
  induction l with
  | nil => rfl
  | cons c cs ih =>
    simp only [removeFirstChar, findCharIdx]
    by_cases hc : c = g
    · rw [if_pos hc, if_pos hc]
      rfl
    · rw [if_neg hc, if_neg hc, ih]
      cases hf : findCharIdx g cs with
      | none => rfl
      | some i =>
        show c :: (cs.take i ++ cs.drop (i + 1)) =
          (c :: cs).take (i + 1) ++ (c :: cs).drop (i + 1 + 1)
        have h2 : i + 1 + 1 = (i + 1) + 1 := rfl
        rw [h2, List.take_succ_cons, List.drop_succ_cons, List.cons_append]

/-- Excision of the first date-marker match, the amended claim's removal. -/
def specRemoveDate (g : Char) (l : Str) : Str :=
  match findDateMatch g l with
  | some q => spliceOut l q.1 q.2
  | none => l

/-- Excision of the first recurrence match, the amended claim's removal. -/
def specRemoveRecur (l : Str) : Str :=
  match findRecurMatch l with
  | some q => spliceOut l q.1 q.2
  | none => l

/-- Excision of the first occurrence of a glyph, the amended claim's
removal. -/
def specRemoveChar (g : Char) (l : Str) : Str :=
  match findCharIdx g l with
  | some i => spliceOut l i 1
  | none => l

/-- The description as the amended claim states it: excise the FIRST
occurrence of each of the five date-marker patterns, the first recurrence
marker with its captured span, and the first occurrence of each of the five
priority glyphs, in the fixed order; then collapse whitespace runs and
trim. -/
def amendedDescription (content : Str) : Str :=
  trimChars (collapseWs false
    (specRemoveChar '⏬'
      (specRemoveChar '🔽'
        (specRemoveChar '🔼'
          (specRemoveChar '⏫'
            (specRemoveChar '🔺'
              (specRemoveRecur
                (specRemoveDate '✅'
                  (specRemoveDate '➕'
                    (specRemoveDate '🛫'
                      (specRemoveDate '⏳'
                        (specRemoveDate '📅' content))))))))))))

/-- C4 amended: for every task line, the description equals the task
content with the first occurrence of each recognized marker pattern excised
(dates, recurrence span, priority glyphs, in the fixed order), whitespace
runs collapsed to single spaces, and the result trimmed. -/
theorem c4_description_first_occurrence_amended (content : Str) :
    extractDescription content = amendedDescription content := by
  unfold extractDescription amendedDescription specRemoveDate specRemoveRecur
    specRemoveChar
  simp only [removeFirstDate_eq_splice, removeFirstRecurrence_eq_splice,
    removeFirstChar_eq_splice]

/-! Claim C8.  Order-independence of marker extraction. -/

/-- A marker glyph together with its value text, the unit the claim
permutes: a date marker with its date, the recurrence marker with its
trailing text, or a bare priority glyph. -/
inductive MPair where
  | date (g : Char) (v : Str)
  | recur (v : Str)
  | prio (g : Char)
deriving DecidableEq

/-- The glyph introducing a marker pair (the pair's kind). -/
def glyphOf : MPair → Char
  | .date g _ => g
  | .recur _ => '🔁'
  | .prio g => g

/-- Text of one marker pair: the glyph, a separating space, and the value
(none for priority glyphs). -/
def renderPair : MPair → Str
  | .date g v => g :: ' ' :: v
  | .recur v => '🔁' :: ' ' :: v
  | .prio g => [g]

/-- Text of a pair sequence: each pair preceded by a separating space. -/
def renderPairs (ps : List MPair) : Str :=
  (ps.map (fun p => ' ' :: renderPair p)).flatten

/-- A task line made of a checkbox, a description and marker pairs. -/
def renderLine (desc : Str) (ps : List MPair) : Str :=
  "- [ ] ".toList ++ desc ++ renderPairs ps

/-- The five date-marker glyphs. -/
def dateGlyphs : Str := ['📅', '⏳', '🛫', '➕', '✅']

/-- The five priority glyphs. -/
def prioGlyphs : Str := ['🔺', '⏫', '🔼', '🔽', '⏬']

/-- Every glyph with marker meaning to the parser's regexes. -/
def allGlyphs : Str := dateGlyphs ++ prioGlyphs ++ ['🔁', '🆔']

/-- A plain character: no marker meaning, not a line terminator, and not a
boundary of the recurrence class run (the flagless class also stops at
non-marker characters such as `😀`, so plain text must avoid every
character carrying an excluded code unit). -/
def plainChar (c : Char) : Bool :=
  !(allGlyphs.contains c) && !(isLineTerm c) && !(recBoundary c)

/-- Well-formedness of one pair: a date pair carries a date glyph and a
well-shaped date, a recurrence value is plain text, a priority pair carries
a priority glyph. -/
def wfPair : MPair → Bool
  | .date g v => dateGlyphs.contains g && wfDate v
  | .recur v => v.all plainChar
  | .prio g => prioGlyphs.contains g

/-- Well-formedness of a rendered line: plain description, well-formed
pairs, and at most one pair per marker kind (with two pairs of the same
kind the first-match scans make the order observable). -/
def WfLine (desc : Str) (ps : List MPair) : Prop :=
  (∀ c ∈ desc, plainChar c = true) ∧ (∀ p ∈ ps, wfPair p = true) ∧
  (ps.map glyphOf).Nodup

/-- First line of the counterexample: two due-date pairs. -/
def c8LineC : Str := "- [ ] 📅 2024-01-01 📅 2024-01-02".toList

/-- Second line: the same two due-date pairs, swapped. -/
def c8LineD : Str := "- [ ] 📅 2024-01-02 📅 2024-01-01".toList

/-- C8 counterexample: permuting the glyph+value pairs of a line can change
extracted fields.  With two due-date pairs on one line, the first-match
date scan makes the pair order observable: swapping the two pairs changes
the extracted due date. -/
theorem c8_perm_counterexample :
    (parseTaskLine c8LineC 0).map (fun t => t.dueDate) =
      some (some "2024-01-01".toList) ∧
    (parseTaskLine c8LineD 0).map (fun t => t.dueDate) =
      some (some "2024-01-02".toList) ∧
    (parseTaskLine c8LineC 0).map (fun t => t.dueDate) ≠
      (parseTaskLine c8LineD 0).map (fun t => t.dueDate) :=
  ⟨by decide, by decide, by decide⟩

/-! Character-class disjointness facts used by the order-independence
proof. -/

/-- A well-formed date pair carries a date glyph and a well-shaped date. -/
theorem wfPair_date {g : Char} {v : Str} (h : wfPair (.date g v) = true) :
    g ∈ dateGlyphs ∧ wfDate v = true := by
  simp only [wfPair, Bool.and_eq_true] at h
  exact ⟨List.mem_of_elem_eq_true h.1, h.2⟩

/-- A well-formed priority pair carries a priority glyph. -/
theorem wfPair_prio {g : Char} (h : wfPair (.prio g) = true) : g ∈ prioGlyphs :=
  List.mem_of_elem_eq_true h

/-- A well-formed recurrence pair carries plain text. -/
theorem wfPair_recur {v : Str} (h : wfPair (.recur v) = true) :
    ∀ c ∈ v, plainChar c = true := by
  simpa only [wfPair, List.all_eq_true] using h

/-- Facts about the five date glyphs. -/
theorem dateGlyph_facts {g : Char} (hg : g ∈ dateGlyphs) :
    isSpace g = false ∧ recBoundary g = true ∧ (isDigit g || g == '-') = false ∧
    g ≠ '🔁' ∧ g ∈ allGlyphs ∧ g ≠ ' ' ∧ isLineTerm g = false := by
  simp only [dateGlyphs, List.mem_cons, List.not_mem_nil, or_false] at hg
  rcases hg with rfl | rfl | rfl | rfl | rfl <;> exact ⟨by decide, by decide,
    by decide, by decide, by decide, by decide, by decide⟩

/-- Facts about the five priority glyphs.  All five are boundaries of the
recurrence class run: `⏫ ⏬` are excluded BMP units and `🔺 🔼 🔽` carry
the excluded lead surrogate `0xD83D`. -/
theorem prioGlyph_facts {g : Char} (hg : g ∈ prioGlyphs) :
    isSpace g = false ∧ (isDigit g || g == '-') = false ∧ g ≠ '🔁' ∧
    g ∈ allGlyphs ∧ g ≠ ' ' ∧ isLineTerm g = false ∧
    recBoundary g = true := by
  simp only [prioGlyphs, List.mem_cons, List.not_mem_nil, or_false] at hg
  rcases hg with rfl | rfl | rfl | rfl | rfl <;> exact ⟨by decide, by decide,
    by decide, by decide, by decide, by decide, by decide⟩

/-- Every character of a well-shaped date is a digit or a hyphen. -/
theorem wfDate_chars {v : Str} (h : wfDate v = true) :
    ∀ c ∈ v, (isDigit c || c == '-') = true := by
  unfold wfDate at h
  split at h
  · simp only [Bool.and_eq_true] at h
    intro c hc
    simp only [List.mem_cons, List.not_mem_nil, or_false] at hc
    rcases hc with rfl | rfl | rfl | rfl | rfl | rfl | rfl | rfl | rfl | rfl <;>
      simp_all
  · cases h

/-- A well-shaped date has exactly ten characters. -/
theorem wfDate_length {v : Str} (h : wfDate v = true) : v.length = 10 := by
  unfold wfDate at h
  split at h
  · simp
  · cases h

/-- Digits and the hyphen are not whitespace. -/
theorem digit_hyphen_not_space {c : Char} (h : (isDigit c || c == '-') = true) :
    isSpace c = false := by
  have hv : 45 ≤ c.toNat ∧ c.toNat ≤ 57 := by
    rcases Bool.or_eq_true_iff.mp h with h1 | h1
    · simp only [isDigit, Bool.and_eq_true, decide_eq_true_eq] at h1
      have n0 : ('0' : Char).toNat ≤ c.toNat := by
        have h2 := h1.1
        rw [Char.le_def, UInt32.le_def, BitVec.le_def] at h2
        exact h2
      have n9 : c.toNat ≤ ('9' : Char).toNat := by
        have h2 := h1.2
        rw [Char.le_def, UInt32.le_def, BitVec.le_def] at h2
        exact h2
      have e0 : ('0' : Char).toNat = 48 := rfl
      have e9 : ('9' : Char).toNat = 57 := rfl
      constructor <;> omega
    · rw [beq_iff_eq] at h1
      subst h1
      exact ⟨by decide, by decide⟩
  cases hs : isSpace c
  · rfl
  · exfalso
    simp only [isSpace, Bool.or_eq_true, Bool.and_eq_true, beq_iff_eq,
      decide_eq_true_eq, or_assoc] at hs
    rcases hs with rfl | rfl | rfl | rfl | rfl | rfl | rfl | rfl | ⟨h1, h2⟩ |
      rfl | rfl | rfl | rfl | rfl | rfl
    all_goals first
    | exact absurd hv (by decide)
    | omega

/-- Line terminators are whitespace. -/
theorem term_imp_space {c : Char} (h : isLineTerm c = true) : isSpace c = true := by
  simp only [isLineTerm, Bool.or_eq_true, beq_iff_eq, or_assoc] at h
  rcases h with rfl | rfl | rfl | rfl <;> decide

/-- A plain character is not a marker glyph and not a terminator. -/
theorem plain_facts {c : Char} (h : plainChar c = true) :
    allGlyphs.contains c = false ∧ isLineTerm c = false := by
  simp only [plainChar, Bool.and_eq_true, Bool.not_eq_true'] at h
  exact h.1

/-- A plain character differs from every marker glyph. -/
theorem plain_ne_glyph {c g : Char} (h : plainChar c = true) (hg : g ∈ allGlyphs) :
    c ≠ g := by
  intro he
  subst he
  have h1 := (plain_facts h).1
  have h2 : allGlyphs.contains c = true := List.elem_eq_true_of_mem hg
  rw [h1] at h2
  cases h2

/-! First-match scans skip glyph-free text. -/

/-- The date scan passes over text free of the marker glyph. -/
theorem extract_date_skip {g : Char} {A : Str} (h : g ∉ A) (B : Str) :
    extractMatchDate g (A ++ B) = extractMatchDate g B := by
  induction A with
  | nil => rfl
  | cons a A ih =>
    rw [List.cons_append]
    by_cases hag : a = g
    · subst hag
      exact absurd (List.mem_cons_self a A) h
    · simp only [extractMatchDate]
      rw [if_neg hag]
      exact ih (fun hm => h (List.mem_cons_of_mem a hm))

/-- The date scan finds nothing in text free of the marker glyph. -/
theorem extract_date_none {g : Char} {A : Str} (h : g ∉ A) :
    extractMatchDate g A = none := by
  have h2 := extract_date_skip h []
  rwa [List.append_nil] at h2

/-- The recurrence scan passes over `🔁`-free text. -/
theorem extract_recur_skip {A : Str} (h : '🔁' ∉ A) (B : Str) :
    extractRecurrenceCapture (A ++ B) = extractRecurrenceCapture B := by
  induction A with
  | nil => rfl
  | cons a A ih =>
    rw [List.cons_append]
    by_cases hag : a = '🔁'
    · subst hag
      exact absurd (List.mem_cons_self '🔁' A) h
    · simp only [extractRecurrenceCapture]
      rw [if_neg hag]
      exact ih (fun hm => h (List.mem_cons_of_mem a hm))

/-- The stored recurrence ignores a `🔁`-free front segment. -/
theorem recStored_skip {A : Str} (h : '🔁' ∉ A) (B : Str) :
    recStored (A ++ B) = recStored B := by
  unfold recStored
  rw [extract_recur_skip h]

/-- The recurrence scan finds nothing in `🔁`-free text. -/
theorem extract_recur_none {A : Str} (h : '🔁' ∉ A) :
    extractRecurrenceCapture A = none := by
  have h2 := extract_recur_skip h []
  rwa [List.append_nil] at h2

/-! Canonical per-pair views of the extracted fields. -/

/-- The date value of the first pair with the given glyph. -/
def lookupDateP (g : Char) (ps : List MPair) : Option Str :=
  ps.findSome? (fun p =>
    match p with
    | .date g2 v => if g2 = g then some v else none
    | _ => none)

/-- The value of the first recurrence pair. -/
def lookupRecurP (ps : List MPair) : Option Str :=
  ps.findSome? (fun p =>
    match p with
    | .recur v => some v
    | _ => none)

/-- Whether a priority pair with the given glyph is present. -/
def hasPrioP (g : Char) (ps : List MPair) : Bool :=
  ps.any (fun p =>
    match p with
    | .prio g2 => g2 == g
    | _ => false)

/-- The priority resulting from the fixed check order over pair presence. -/
def prioOfPairs (ps : List MPair) : Option Str :=
  if hasPrioP '🔺' ps then some "highest".toList
  else if hasPrioP '⏫' ps then some "high".toList
  else if hasPrioP '🔼' ps then some "medium".toList
  else if hasPrioP '🔽' ps then some "low".toList
  else if hasPrioP '⏬' ps then some "lowest".toList
  else none

/-- The stored recurrence determined by the recurrence pair's value. -/
def recurOfPairs (ps : List MPair) : Option Str :=
  match lookupRecurP ps with
  | some v => if trimChars v = [] then none else some (trimChars v)
  | none => none

/-- Unfolding of `renderPairs` on a cons. -/
theorem renderPairs_cons (p : MPair) (ps : List MPair) :
    renderPairs (p :: ps) = (' ' :: renderPair p) ++ renderPairs ps := by
  simp [renderPairs]

/-- A rendered pair begins with its glyph. -/
theorem renderPair_head (p : MPair) : ∃ tl, renderPair p = glyphOf p :: tl := by
  cases p <;> exact ⟨_, rfl⟩

/-- Marker glyphs are neither digits nor the hyphen. -/
theorem allGlyphs_not_datechar {c : Char} (h : c ∈ allGlyphs) :
    (isDigit c || c == '-') = false := by
  simp only [allGlyphs, dateGlyphs, prioGlyphs, List.mem_append, List.mem_cons,
    List.not_mem_nil, or_false, or_assoc] at h
  rcases h with rfl | rfl | rfl | rfl | rfl | rfl | rfl | rfl | rfl | rfl |
    rfl | rfl <;> decide

/-- A date glyph differs from every priority glyph. -/
theorem date_prio_disjoint {g g2 : Char} (hg : g ∈ dateGlyphs)
    (h2 : g2 ∈ prioGlyphs) : g ≠ g2 := by
  simp only [dateGlyphs, List.mem_cons, List.not_mem_nil, or_false] at hg
  simp only [prioGlyphs, List.mem_cons, List.not_mem_nil, or_false] at h2
  rcases hg with rfl | rfl | rfl | rfl | rfl <;>
    rcases h2 with rfl | rfl | rfl | rfl | rfl <;> decide

/-- A marker glyph does not occur in plain text. -/
theorem plain_not_mem {v : Str} {g : Char} (hv : ∀ c ∈ v, plainChar c = true)
    (hg : g ∈ allGlyphs) : g ∉ v :=
  fun hm => (plain_ne_glyph (hv g hm) hg) rfl

/-- A marker glyph does not occur in a well-shaped date. -/
theorem date_chars_not_mem {v : Str} {g : Char} (hv : wfDate v = true)
    (hg : g ∈ allGlyphs) : g ∉ v := by
  intro hm
  have h1 := wfDate_chars hv g hm
  rw [allGlyphs_not_datechar hg] at h1
  cases h1

/-- A glyph absent from a pair's kind does not occur in the pair's rendered
segment. -/
theorem g_not_in_segment {g : Char} (hgAll : g ∈ allGlyphs) (hgsp : g ≠ ' ')
    {p : MPair} (hp : wfPair p = true) (hne : glyphOf p ≠ g) :
    g ∉ (' ' :: renderPair p) := by
  intro hm
  rcases List.mem_cons.mp hm with he | hm2
  · exact hgsp he
  cases p with
  | date g2 v =>
    obtain ⟨hgd, hvd⟩ := wfPair_date hp
    rcases List.mem_cons.mp hm2 with he2 | hm3
    · exact hne he2.symm
    rcases List.mem_cons.mp hm3 with he3 | hm4
    · exact hgsp he3
    · exact date_chars_not_mem hvd hgAll hm4
  | recur v =>
    rcases List.mem_cons.mp hm2 with he2 | hm3
    · exact hne he2.symm
    rcases List.mem_cons.mp hm3 with he3 | hm4
    · exact hgsp he3
    · exact plain_not_mem (wfPair_recur hp) hgAll hm4
  | prio g2 =>
    rcases List.mem_cons.mp hm2 with he2 | hm3
    · exact hne he2.symm
    · cases hm3

/-- `lookupDateP` skips a pair of a different kind. -/
theorem lookupDateP_cons_skip {g : Char} {p : MPair} (hne : glyphOf p ≠ g)
    (ps : List MPair) : lookupDateP g (p :: ps) = lookupDateP g ps := by
  cases p with
  | date g2 v =>
    simp only [glyphOf] at hne
    simp [lookupDateP, List.findSome?_cons, if_neg hne]
  | recur v => simp [lookupDateP, List.findSome?_cons]
  | prio g2 => simp [lookupDateP, List.findSome?_cons]

/-- One step of the date scan over a non-matching head. -/
theorem extract_date_cons_ne {g c : Char} (h : c ≠ g) (cs : Str) :
    extractMatchDate g (c :: cs) = extractMatchDate g cs := by
  simp only [extractMatchDate]
  rw [if_neg h]

/-- One step of the date scan at the glyph with a matching tail. -/
theorem extract_date_cons_hit {g : Char} {cs d : Str} (h : dateAt cs = some d) :
    extractMatchDate g (g :: cs) = some d := by
  simp only [extractMatchDate, if_true]
  rw [h]

/-- The date tail matches exactly at a rendered date value. -/
theorem dateAt_render {v : Str} (hv : wfDate v = true) (R : Str) :
    dateAt (' ' :: (v ++ R)) = some v := by
  cases v with
  | nil => exact absurd hv (by decide)
  | cons v0 vr =>
    have hv0 : isSpace v0 = false :=
      digit_hyphen_not_space (wfDate_chars hv v0 (List.mem_cons_self v0 vr))
    have hd : (' ' :: ((v0 :: vr) ++ R)).dropWhile isSpace = (v0 :: vr) ++ R := by
      rw [List.dropWhile_cons, if_pos (by decide), List.cons_append,
        List.dropWhile_cons, if_neg (by rw [hv0]; exact Bool.false_ne_true),
        ← List.cons_append]
    unfold dateAt
    rw [hd, List.take_left' (wfDate_length hv), if_pos hv]

/-- Date extraction over rendered pairs reads off the first pair with the
glyph. -/
theorem extract_date_renderPairs {g : Char} (hg : g ∈ dateGlyphs) :
    ∀ ps : List MPair, (∀ p ∈ ps, wfPair p = true) →
      extractMatchDate g (renderPairs ps) = lookupDateP g ps := by
  intro ps
  induction ps with
  | nil => intro _; rfl
  | cons p ps ih =>
    intro hwf
    obtain ⟨f1, f2, f3, f4, f5, f6, f7⟩ := dateGlyph_facts hg
    rw [renderPairs_cons]
    have hwp := hwf p (List.mem_cons_self p ps)
    have hwrest : ∀ q ∈ ps, wfPair q = true :=
      fun q hq => hwf q (List.mem_cons_of_mem p hq)
    cases p with
    | date g2 v =>
      obtain ⟨hgd, hvd⟩ := wfPair_date hwp
      by_cases hgg : g2 = g
      · rw [hgg]
        have lhs : extractMatchDate g ((' ' :: renderPair (.date g v)) ++
            renderPairs ps) = some v := by
          simp only [renderPair, List.cons_append]
          rw [extract_date_cons_ne (Ne.symm f6),
            extract_date_cons_hit (dateAt_render hvd (renderPairs ps))]
        rw [lhs]
        simp [lookupDateP, List.findSome?_cons]
      · have hne : glyphOf (.date g2 v) ≠ g := by
          simpa only [glyphOf] using hgg
        rw [extract_date_skip (g_not_in_segment f5 f6 hwp hne), ih hwrest,
          lookupDateP_cons_skip hne]
    | recur v =>
      have hne : glyphOf (.recur v) ≠ g := by
        simp only [glyphOf]
        exact Ne.symm f4
      rw [extract_date_skip (g_not_in_segment f5 f6 hwp hne), ih hwrest,
        lookupDateP_cons_skip hne]
    | prio g2 =>
      have hne : glyphOf (.prio g2) ≠ g := by
        simp only [glyphOf]
        exact Ne.symm (date_prio_disjoint hg (wfPair_prio hwp))
      rw [extract_date_skip (g_not_in_segment f5 f6 hwp hne), ih hwrest,
        lookupDateP_cons_skip hne]

/-- Date extraction over a full rendered content (description followed by
pairs). -/
theorem extract_date_line {g : Char} (hg : g ∈ dateGlyphs) {desc : Str}
    {ps : List MPair} (hdesc : ∀ c ∈ desc, plainChar c = true)
    (hwf : ∀ p ∈ ps, wfPair p = true) :
    extractMatchDate g (desc ++ renderPairs ps) = lookupDateP g ps := by
  rw [extract_date_skip (plain_not_mem hdesc (dateGlyph_facts hg).2.2.2.2.1),
    extract_date_renderPairs hg ps hwf]

/-! Recurrence characterization over rendered pairs. -/

/-- One step of the recurrence scan over a non-marker head. -/
theorem extract_recur_cons_ne {c : Char} (h : c ≠ '🔁') (cs : Str) :
    extractRecurrenceCapture (c :: cs) = extractRecurrenceCapture cs := by
  simp only [extractRecurrenceCapture]
  rw [if_neg h]

/-- One step of the recurrence scan at the marker. -/
theorem extract_recur_cons_hit (cs : Str) :
    extractRecurrenceCapture ('🔁' :: cs) =
      some ((cs.dropWhile isSpace).takeWhile (fun x => !recBoundary x)) := by
  simp only [extractRecurrenceCapture, if_true]

/-- The stored recurrence ignores a non-marker head character. -/
theorem recStored_cons_ne {c : Char} (h : c ≠ '🔁') (cs : Str) :
    recStored (c :: cs) = recStored cs := by
  unfold recStored
  rw [extract_recur_cons_ne h]

/-- `takeWhile` stops inside a front segment containing a failing element. -/
theorem takeWhile_append_stop {p : Char → Bool} {A : Str} (B : Str)
    (h : ¬ ∀ a ∈ A, p a = true) :
    (A ++ B).takeWhile p = A.takeWhile p := by
  induction A with
  | nil => exact absurd (fun a ha => absurd ha (List.not_mem_nil a)) h
  | cons a A ih =>
    rw [List.cons_append, List.takeWhile_cons, List.takeWhile_cons]
    by_cases hp : p a = true
    · rw [if_pos hp, if_pos hp, ih (fun hall => h (fun x hx => by
        rcases List.mem_cons.mp hx with rfl | hx2
        · exact hp
        · exact hall x hx2))]
    · rw [if_neg hp, if_neg hp]

/-- `dropWhile` stays within a front segment containing a failing element. -/
theorem dropWhile_append_stop {p : Char → Bool} {A : Str} (B : Str)
    (h : ¬ ∀ a ∈ A, p a = true) :
    (A ++ B).dropWhile p = A.dropWhile p ++ B := by
  induction A with
  | nil => exact absurd (fun a ha => absurd ha (List.not_mem_nil a)) h
  | cons a A ih =>
    rw [List.cons_append, List.dropWhile_cons, List.dropWhile_cons]
    by_cases hp : p a = true
    · rw [if_pos hp, if_pos hp, ih (fun hall => h (fun x hx => by
        rcases List.mem_cons.mp hx with rfl | hx2
        · exact hp
        · exact hall x hx2))]
    · rw [if_neg hp, if_neg hp, List.cons_append]

/-- `takeWhile` keeps an all-satisfying list whole. -/
theorem takeWhile_all_id {p : Char → Bool} {A : Str}
    (h : ∀ a ∈ A, p a = true) : A.takeWhile p = A := by
  have h2 := takeWhile_append_all (p := p) [] h
  simpa using h2

/-- `dropWhile` consumes an all-satisfying list entirely. -/
theorem dropWhile_all_nil {p : Char → Bool} {A : Str}
    (h : ∀ a ∈ A, p a = true) : A.dropWhile p = [] := by
  have h2 := dropWhile_append_all (p := p) [] h
  simpa using h2

/-- Right trim is unaffected by an all-whitespace tail. -/
theorem rtrim_append_ws {Y W : Str} (hW : ∀ c ∈ W, isSpace c = true) :
    rtrimChars (Y ++ W) = rtrimChars Y := by
  unfold rtrimChars
  rw [List.reverse_append,
    dropWhile_append_all _ (fun a ha => hW a (List.mem_reverse.mp ha))]

/-- Trim is unaffected by an all-whitespace tail. -/
theorem trim_append_ws {Y W : Str} (hW : ∀ c ∈ W, isSpace c = true) :
    trimChars (Y ++ W) = trimChars Y := by
  unfold trimChars ltrimChars
  by_cases hall : ∀ c ∈ Y, isSpace c = true
  · rw [dropWhile_append_all _ hall, dropWhile_all_nil hW, dropWhile_all_nil hall]
  · rw [dropWhile_append_stop _ hall, rtrim_append_ws hW]

/-- An all-whitespace list trims to nothing. -/
theorem trim_all_ws_nil {v : Str} (h : ∀ c ∈ v, isSpace c = true) :
    trimChars v = [] := by
  unfold trimChars ltrimChars
  rw [dropWhile_all_nil h]
  rfl

/-- `dropWhile` is idempotent. -/
theorem dropWhile_idem (p : Char → Bool) (l : Str) :
    (l.dropWhile p).dropWhile p = l.dropWhile p := by
  cases hd : l.dropWhile p with
  | nil => rfl
  | cons d ds =>
    rw [List.dropWhile_cons, if_neg (by rw [dropWhile_head_false hd]; exact
      Bool.false_ne_true)]

/-- Trimming ignores an initial left trim. -/
theorem trim_ltrim (v : Str) : trimChars (v.dropWhile isSpace) = trimChars v := by
  unfold trimChars ltrimChars
  rw [dropWhile_idem]

/-- Plain characters are not capture boundaries. -/
theorem plain_not_boundary {c : Char} (h : plainChar c = true) :
    recBoundary c = false := by
  simp only [plainChar, Bool.and_eq_true, Bool.not_eq_true'] at h
  exact h.2

/-- The glyph of a well-formed pair is never whitespace. -/
theorem glyphOf_not_space {p : MPair} (hp : wfPair p = true) :
    isSpace (glyphOf p) = false := by
  cases p with
  | date g v => exact (dateGlyph_facts (wfPair_date hp).1).1
  | recur v =>
    simp only [glyphOf]
    decide
  | prio g => exact (prioGlyph_facts (wfPair_prio hp)).1

/-- The glyph of every well-formed pair is a capture boundary: all eleven
marker glyphs carry an excluded code unit (for `🔁` and `🔺` the lead
surrogate `0xD83D`). -/
theorem glyph_boundary_of {q : MPair} (hq : wfPair q = true) :
    recBoundary (glyphOf q) = true := by
  cases q with
  | date g v => exact (dateGlyph_facts (wfPair_date hq).1).2.1
  | recur v => exact (by decide : recBoundary '🔁' = true)
  | prio g => exact (prioGlyph_facts (wfPair_prio hq)).2.2.2.2.2.2

/-- The capture's continuation into following segments is at most the
separating space. -/
theorem takeWhile_notb_renderPairs_cons (p : MPair) (ps : List MPair)
    (hb : recBoundary (glyphOf p) = true) :
    (renderPairs (p :: ps)).takeWhile (fun x => !recBoundary x) = [' '] := by
  rw [renderPairs_cons]
  obtain ⟨tl, htl⟩ := renderPair_head p
  rw [htl]
  simp only [List.cons_append, List.takeWhile_cons]
  rw [if_pos (by decide), if_neg (by rw [hb]; decide)]

/-- The stored recurrence over rendered pairs reads off the recurrence
pair's trimmed value.  Requires distinct pair kinds. -/
theorem recStored_renderPairs :
    ∀ ps : List MPair, (∀ p ∈ ps, wfPair p = true) →
      (ps.map glyphOf).Nodup →
      recStored (renderPairs ps) = recurOfPairs ps := by
  intro ps
  induction ps with
  | nil => intro _ _; rfl
  | cons p ps ih =>
    intro hwf hnd
    have hwp := hwf p (List.mem_cons_self p ps)
    have hwrest : ∀ q ∈ ps, wfPair q = true :=
      fun q hq => hwf q (List.mem_cons_of_mem p hq)
    rw [List.map_cons] at hnd
    obtain ⟨hhead, hndt⟩ := List.nodup_cons.mp hnd
    rw [renderPairs_cons]
    cases p with
    | recur v =>
      have hrhs : recurOfPairs (.recur v :: ps) =
          (if trimChars v = [] then none else some (trimChars v)) := by
        simp [recurOfPairs, lookupRecurP, List.findSome?_cons]
      rw [hrhs]
      simp only [renderPair, List.cons_append]
      rw [recStored_cons_ne (by decide)]
      unfold recStored
      rw [extract_recur_cons_hit]
      have hdw : (' ' :: (v ++ renderPairs ps)).dropWhile isSpace =
          (v ++ renderPairs ps).dropWhile isSpace := by
        rw [List.dropWhile_cons, if_pos (by decide)]
      rw [hdw]
      have hbps : ∀ q ∈ ps, recBoundary (glyphOf q) = true :=
        fun q hq => glyph_boundary_of (hwrest q hq)
      by_cases hall : ∀ c ∈ v, isSpace c = true
      · rw [dropWhile_append_all _ hall]
        have hcap : ((renderPairs ps).dropWhile isSpace).takeWhile
            (fun x => !recBoundary x) = [] := by
          cases ps with
          | nil => rfl
          | cons q qs =>
            rw [renderPairs_cons]
            obtain ⟨tl, htl⟩ := renderPair_head q
            rw [htl]
            simp only [List.cons_append, List.dropWhile_cons]
            rw [if_pos (by decide), if_neg (by
              rw [glyphOf_not_space (hwrest q (List.mem_cons_self q qs))]
              exact Bool.false_ne_true)]
            rw [List.takeWhile_cons, if_neg (by
              rw [hbps q (List.mem_cons_self q qs)]
              decide)]
        rw [hcap, if_pos (trim_all_ws_nil hall)]
      · rw [dropWhile_append_stop _ hall]
        have hvplain : ∀ c ∈ v.dropWhile isSpace,
            (fun x => !recBoundary x) c = true := by
          intro c hc
          have hm : c ∈ v := List.dropWhile_subset isSpace hc
          simp [plain_not_boundary (wfPair_recur hwp c hm)]
        rw [takeWhile_append_all _ hvplain]
        have hvne : v.dropWhile isSpace ≠ [] := by
          intro h0
          exact hall (List.dropWhile_eq_nil_iff.mp h0)
        cases hdv : v.dropWhile isSpace with
        | nil => exact absurd hdv hvne
        | cons d ds =>
          have hd : isSpace d = false := dropWhile_head_false hdv
          simp only [List.cons_append]
          have hws : ∀ c ∈ (renderPairs ps).takeWhile (fun x => !recBoundary x),
              isSpace c = true := by
            cases ps with
            | nil =>
              intro c hc
              simp [renderPairs] at hc
            | cons q qs =>
              rw [takeWhile_notb_renderPairs_cons q qs
                (hbps q (List.mem_cons_self q qs))]
              intro c hc
              rcases List.mem_cons.mp hc with rfl | h0
              · decide
              · cases h0
          have htw : trimChars (d :: (ds ++
              (renderPairs ps).takeWhile (fun x => !recBoundary x))) =
              trimChars v := by
            rw [← List.cons_append, trim_append_ws hws, ← hdv, trim_ltrim]
          have htvne : trimChars v ≠ [] := by
            rw [← trim_ltrim v, hdv]
            unfold trimChars ltrimChars
            rw [List.dropWhile_cons, if_neg (by rw [hd]; exact
              Bool.false_ne_true)]
            exact rtrim_cons_ne_nil hd
          rw [if_neg htvne]
          show some (trimChars (d :: (ds ++
            (renderPairs ps).takeWhile (fun x => !recBoundary x)))) =
            some (trimChars v)
          rw [htw]
    | date g v =>
      have hne : glyphOf (.date g v) ≠ '🔁' := by
        simp only [glyphOf]
        exact (dateGlyph_facts (wfPair_date hwp).1).2.2.2.1
      have hskip : ('🔁' : Char) ∉ (' ' :: renderPair (.date g v)) :=
        g_not_in_segment (by decide) (by decide) hwp hne
      rw [recStored_skip hskip]
      have hrhs : recurOfPairs (.date g v :: ps) = recurOfPairs ps := by
        simp [recurOfPairs, lookupRecurP, List.findSome?_cons]
      rw [hrhs]
      exact ih hwrest hndt
    | prio g =>
      have hne : glyphOf (.prio g) ≠ '🔁' := by
        simp only [glyphOf]
        exact (prioGlyph_facts (wfPair_prio hwp)).2.2.1
      have hskip : ('🔁' : Char) ∉ (' ' :: renderPair (.prio g)) :=
        g_not_in_segment (by decide) (by decide) hwp hne
      rw [recStored_skip hskip]
      have hrhs : recurOfPairs (.prio g :: ps) = recurOfPairs ps := by
        simp [recurOfPairs, lookupRecurP, List.findSome?_cons]
      rw [hrhs]
      exact ih hwrest hndt

/-- The stored recurrence over a full rendered content. -/
theorem recStored_line {desc : Str} {ps : List MPair}
    (hdesc : ∀ c ∈ desc, plainChar c = true)
    (hwf : ∀ p ∈ ps, wfPair p = true) (hnd : (ps.map glyphOf).Nodup) :
    recStored (desc ++ renderPairs ps) = recurOfPairs ps := by
  rw [recStored_skip (plain_not_mem hdesc (by decide)),
    recStored_renderPairs ps hwf hnd]

/-! Priority characterization over rendered pairs. -/

/-- Membership of a priority glyph in rendered pairs detects its pair. -/
theorem mem_renderPairs_prio {g : Char} (hg : g ∈ prioGlyphs) :
    ∀ ps : List MPair, (∀ p ∈ ps, wfPair p = true) →
      (g ∈ renderPairs ps ↔ MPair.prio g ∈ ps) := by
  obtain ⟨p1, p2, p3, p4, p5, p6, p7⟩ := prioGlyph_facts hg
  intro ps
  induction ps with
  | nil =>
    intro _
    simp [renderPairs]
  | cons p ps ih =>
    intro hwf
    have hwp := hwf p (List.mem_cons_self p ps)
    have hwrest : ∀ q ∈ ps, wfPair q = true :=
      fun q hq => hwf q (List.mem_cons_of_mem p hq)
    rw [renderPairs_cons]
    constructor
    · intro hm
      rcases List.mem_append.mp hm with hm1 | hm2
      · by_cases hgo : glyphOf p = g
        · cases p with
          | date g2 v =>
            simp only [glyphOf] at hgo
            exact absurd hgo (date_prio_disjoint (wfPair_date hwp).1 hg)
          | recur v =>
            simp only [glyphOf] at hgo
            exact absurd hgo.symm p3
          | prio g2 =>
            simp only [glyphOf] at hgo
            rw [hgo]
            exact List.mem_cons_self _ ps
        · exact absurd hm1 (g_not_in_segment p4 p5 hwp hgo)
      · exact List.mem_cons_of_mem _ ((ih hwrest).mp hm2)
    · intro hp
      rcases List.mem_cons.mp hp with he | hp2
      · apply List.mem_append.mpr
        left
        rw [← he]
        simp [renderPair]
      · exact List.mem_append.mpr (Or.inr ((ih hwrest).mpr hp2))

/-- `hasPrioP` detects the presence of the priority pair. -/
theorem hasPrioP_iff {g : Char} {ps : List MPair} :
    hasPrioP g ps = true ↔ MPair.prio g ∈ ps := by
  unfold hasPrioP
  rw [List.any_eq_true]
  constructor
  · rintro ⟨p, hp, hf⟩
    cases p with
    | date g2 v => cases hf
    | recur v => cases hf
    | prio g2 =>
      rw [beq_iff_eq] at hf
      rw [← hf]
      exact hp
  · intro hp
    exact ⟨.prio g, hp, by simp⟩

/-- Containment of a priority glyph in the rendered content equals pair
presence. -/
theorem contains_line_prio {g : Char} (hg : g ∈ prioGlyphs) {desc : Str}
    {ps : List MPair} (hdesc : ∀ c ∈ desc, plainChar c = true)
    (hwf : ∀ p ∈ ps, wfPair p = true) :
    (desc ++ renderPairs ps).contains g = hasPrioP g ps := by
  rw [Bool.eq_iff_iff]
  constructor
  · intro hc
    have hm := List.mem_of_elem_eq_true hc
    rcases List.mem_append.mp hm with hm1 | hm2
    · exact absurd hm1
        (plain_not_mem hdesc (prioGlyph_facts hg).2.2.2.1)
    · exact hasPrioP_iff.mpr ((mem_renderPairs_prio hg ps hwf).mp hm2)
  · intro hp
    exact List.elem_eq_true_of_mem (List.mem_append.mpr
      (Or.inr ((mem_renderPairs_prio hg ps hwf).mpr (hasPrioP_iff.mp hp))))

/-- Priority extraction over a full rendered content. -/
theorem extract_priority_line {desc : Str} {ps : List MPair}
    (hdesc : ∀ c ∈ desc, plainChar c = true)
    (hwf : ∀ p ∈ ps, wfPair p = true) :
    extractPriority (desc ++ renderPairs ps) = prioOfPairs ps := by
  unfold extractPriority prioOfPairs
  rw [contains_line_prio (g := '🔺') (by decide) hdesc hwf,
    contains_line_prio (g := '⏫') (by decide) hdesc hwf,
    contains_line_prio (g := '🔼') (by decide) hdesc hwf,
    contains_line_prio (g := '🔽') (by decide) hdesc hwf,
    contains_line_prio (g := '⏬') (by decide) hdesc hwf]

/-! Trimming the content does not change the extracted fields: the trimmed
whitespace contains no marker glyph and cannot complete a date pattern. -/

/-- The date tail ignores an all-whitespace suffix. -/
theorem dateAt_pad_right {W : Str} (hW : ∀ c ∈ W, isSpace c = true) (cs : Str) :
    dateAt (cs ++ W) = dateAt cs := by
  by_cases hall : ∀ c ∈ cs, isSpace c = true
  · unfold dateAt
    rw [dropWhile_append_all _ hall, dropWhile_all_nil hW, dropWhile_all_nil hall]
  · unfold dateAt
    rw [dropWhile_append_stop _ hall]
    by_cases hlen : 10 ≤ (cs.dropWhile isSpace).length
    · rw [List.take_append_eq_append_take, Nat.sub_eq_zero_of_le hlen,
        List.take_zero, List.append_nil]
    · have hlt : (cs.dropWhile isSpace).length < 10 := Nat.lt_of_not_le hlen
      rw [List.take_append_eq_append_take,
        List.take_of_length_le (Nat.le_of_lt hlt)]
      have h1 : wfDate (cs.dropWhile isSpace ++
          W.take (10 - (cs.dropWhile isSpace).length)) = false := by
        cases hwf : wfDate (cs.dropWhile isSpace ++
            W.take (10 - (cs.dropWhile isSpace).length))
        · rfl
        · exfalso
          cases hwt : W.take (10 - (cs.dropWhile isSpace).length) with
          | nil =>
            rw [hwt, List.append_nil] at hwf
            have := wfDate_length hwf
            omega
          | cons w ws =>
            have hwmem : w ∈ W := List.take_subset _ W (hwt ▸
              List.mem_cons_self w ws)
            have hdh := wfDate_chars hwf w (List.mem_append.mpr (Or.inr (hwt ▸
              List.mem_cons_self w ws)))
            have hsp := hW w hwmem
            rw [digit_hyphen_not_space hdh] at hsp
            exact Bool.false_ne_true hsp
      have h2 : wfDate (cs.dropWhile isSpace) = false := by
        cases hwf : wfDate (cs.dropWhile isSpace)
        · rfl
        · exfalso
          have := wfDate_length hwf
          omega
      rw [h1, h2]
      rfl

/-- The date scan ignores an all-whitespace suffix. -/
theorem extract_date_pad_right {g : Char} {W : Str} (hg : isSpace g = false)
    (hW : ∀ c ∈ W, isSpace c = true) :
    ∀ Y : Str, extractMatchDate g (Y ++ W) = extractMatchDate g Y := by
  intro Y
  induction Y with
  | nil =>
    rw [List.nil_append]
    exact extract_date_none (fun hm => by rw [hW g hm] at hg; cases hg)
  | cons c cs ih =>
    rw [List.cons_append]
    simp only [extractMatchDate]
    rw [dateAt_pad_right hW cs, ih]

/-- The stored recurrence ignores an all-whitespace suffix. -/
theorem recStored_pad_right {W : Str} (hW : ∀ c ∈ W, isSpace c = true) :
    ∀ Y : Str, recStored (Y ++ W) = recStored Y := by
  intro Y
  induction Y with
  | nil =>
    rw [List.nil_append]
    unfold recStored
    rw [extract_recur_none (fun hm => by
      have := hW '🔁' hm
      exact absurd this (by decide))]
    rfl
  | cons c cs ih =>
    rw [List.cons_append]
    by_cases hc : c = '🔁'
    · subst hc
      unfold recStored
      rw [extract_recur_cons_hit, extract_recur_cons_hit]
      by_cases hall : ∀ x ∈ cs, isSpace x = true
      · rw [dropWhile_append_all _ hall, dropWhile_all_nil hW,
          dropWhile_all_nil hall]
      · rw [dropWhile_append_stop _ hall]
        by_cases hz : ∀ x ∈ cs.dropWhile isSpace, (!recBoundary x) = true
        · rw [takeWhile_append_all _ hz, takeWhile_all_id hz]
          have hWb : ∀ x ∈ W, (!recBoundary x) = true := fun x hx => by
            simp [space_not_recBoundary (hW x hx)]
          rw [takeWhile_all_id hWb]
          have hZne : cs.dropWhile isSpace ≠ [] :=
            fun h0 => hall (List.dropWhile_eq_nil_iff.mp h0)
          cases hdz : cs.dropWhile isSpace with
          | nil => exact absurd hdz hZne
          | cons d ds =>
            simp only [List.cons_append]
            show some (trimChars (d :: (ds ++ W))) = some (trimChars (d :: ds))
            rw [← List.cons_append, trim_append_ws hW]
        · rw [takeWhile_append_stop _ hz]
    · rw [recStored_cons_ne hc, recStored_cons_ne hc, ih]

/-- Every list splits as whitespace, its trim, and whitespace. -/
theorem exists_trim_decomp (D : Str) :
    ∃ A B : Str, D = A ++ (trimChars D ++ B) ∧
      (∀ c ∈ A, isSpace c = true) ∧ (∀ c ∈ B, isSpace c = true) := by
  refine ⟨D.takeWhile isSpace,
    (((D.dropWhile isSpace).reverse.takeWhile isSpace)).reverse, ?_, ?_, ?_⟩
  · have h2 : D.dropWhile isSpace = trimChars D ++
        ((D.dropWhile isSpace).reverse.takeWhile isSpace).reverse := by
      unfold trimChars ltrimChars rtrimChars
      conv_lhs => rw [← List.reverse_reverse (D.dropWhile isSpace),
        ← List.takeWhile_append_dropWhile (p := isSpace)
          (l := (D.dropWhile isSpace).reverse), List.reverse_append]
    conv_lhs => rw [← List.takeWhile_append_dropWhile (p := isSpace) (l := D)]
    rw [← h2]
  · exact fun c hc => mem_takeWhile_sat hc
  · exact fun c hc => mem_takeWhile_sat (List.mem_reverse.mp hc)

/-- The date scan is unaffected by trimming. -/
theorem extract_date_trim {g : Char} (hg : isSpace g = false) (D : Str) :
    extractMatchDate g (trimChars D) = extractMatchDate g D := by
  obtain ⟨A, B, hD, hA, hB⟩ := exists_trim_decomp D
  conv_rhs => rw [hD]
  rw [extract_date_skip (fun hm => by rw [hA g hm] at hg; cases hg),
    extract_date_pad_right hg hB]

/-- The stored recurrence is unaffected by trimming. -/
theorem recStored_trim (D : Str) : recStored (trimChars D) = recStored D := by
  obtain ⟨A, B, hD, hA, hB⟩ := exists_trim_decomp D
  conv_rhs => rw [hD]
  rw [recStored_skip (fun hm => absurd (hA '🔁' hm) (by decide)),
    recStored_pad_right hB]

/-- Glyph containment is unaffected by trimming. -/
theorem contains_trim {g : Char} (hg : isSpace g = false) (D : Str) :
    (trimChars D).contains g = D.contains g := by
  obtain ⟨A, B, hD, hA, hB⟩ := exists_trim_decomp D
  rw [Bool.eq_iff_iff]
  constructor
  · intro hc
    apply List.elem_eq_true_of_mem
    rw [hD]
    exact List.mem_append.mpr (Or.inr (List.mem_append.mpr (Or.inl
      (List.mem_of_elem_eq_true hc))))
  · intro hc
    apply List.elem_eq_true_of_mem
    have hm := List.mem_of_elem_eq_true hc
    rw [hD] at hm
    rcases List.mem_append.mp hm with hm1 | hm2
    · rw [hA g hm1] at hg
      cases hg
    rcases List.mem_append.mp hm2 with hm3 | hm4
    · exact hm3
    · rw [hB g hm4] at hg
      cases hg

/-- Priority extraction is unaffected by trimming. -/
theorem extract_priority_trim (D : Str) :
    extractPriority (trimChars D) = extractPriority D := by
  unfold extractPriority
  rw [contains_trim (g := '🔺') (by decide) D,
    contains_trim (g := '⏫') (by decide) D,
    contains_trim (g := '🔼') (by decide) D,
    contains_trim (g := '🔽') (by decide) D,
    contains_trim (g := '⏬') (by decide) D]

/-! Permutation invariance of the canonical views. -/

/-- `findSome?` is the head of the `filterMap`. -/
theorem findSome?_eq_head?_filterMap (f : MPair → Option Str) (l : List MPair) :
    l.findSome? f = (l.filterMap f).head? := by
  induction l with
  | nil => rfl
  | cons p l ih =>
    cases hf : f p with
    | none =>
      rw [List.findSome?_cons, List.filterMap_cons, hf]
      exact ih
    | some v =>
      rw [List.findSome?_cons, List.filterMap_cons, hf]
      rfl

/-- When a selector only fires on pairs of one kind and kinds are distinct,
it fires at most once. -/
theorem at_most_one_filterMap {f : MPair → Option Str} {g : Char}
    (hf : ∀ p v, f p = some v → glyphOf p = g) :
    ∀ {l : List MPair}, (l.map glyphOf).Nodup → (l.filterMap f).length ≤ 1 := by
  intro l
  induction l with
  | nil =>
    intro _
    simp
  | cons p l ih =>
    intro hnd
    rw [List.map_cons] at hnd
    obtain ⟨hh, ht⟩ := List.nodup_cons.mp hnd
    rw [List.filterMap_cons]
    cases hfp : f p with
    | none => exact ih ht
    | some v =>
      have hnil : l.filterMap f = [] := by
        rw [List.filterMap_eq_nil_iff]
        intro q hq
        cases hfq : f q with
        | none => rfl
        | some w =>
          exfalso
          apply hh
          rw [hf p v hfp, ← hf q w hfq]
          exact List.mem_map_of_mem glyphOf hq
      rw [hnil]
      simp

/-- Permutations of lists of at most one element are equalities. -/
theorem perm_length_le_one_eq {l1 l2 : List Str} (h : l1.Perm l2)
    (hl : l1.length ≤ 1) : l1 = l2 := by
  cases l1 with
  | nil => exact (h.symm.eq_nil).symm
  | cons a t =>
    cases t with
    | nil => exact (List.perm_singleton.mp h.symm).symm
    | cons b t2 => simp at hl

/-- `lookupDateP` is permutation-invariant under distinct kinds. -/
theorem lookupDateP_perm {g : Char} {ps qs : List MPair} (hperm : ps.Perm qs)
    (hnd : (ps.map glyphOf).Nodup) : lookupDateP g ps = lookupDateP g qs := by
  unfold lookupDateP
  rw [findSome?_eq_head?_filterMap, findSome?_eq_head?_filterMap]
  have hf : ∀ (p : MPair) (v : Str),
      (match p with
       | MPair.date g2 v => if g2 = g then some v else none
       | _ => none) = some v → glyphOf p = g := by
    intro p v hp
    cases p with
    | date g2 v2 =>
      by_cases hg2 : g2 = g
      · simpa [glyphOf] using hg2
      · rw [show (match MPair.date g2 v2 with
          | MPair.date g3 v => if g3 = g then some v else none
          | _ => none) = (if g2 = g then some v2 else none) from rfl,
          if_neg hg2] at hp
        cases hp
    | recur v2 => cases hp
    | prio g2 => cases hp
  exact congrArg List.head?
    (perm_length_le_one_eq (hperm.filterMap _) (at_most_one_filterMap hf hnd))

/-- `lookupRecurP` is permutation-invariant under distinct kinds. -/
theorem lookupRecurP_perm {ps qs : List MPair} (hperm : ps.Perm qs)
    (hnd : (ps.map glyphOf).Nodup) : lookupRecurP ps = lookupRecurP qs := by
  unfold lookupRecurP
  rw [findSome?_eq_head?_filterMap, findSome?_eq_head?_filterMap]
  have hf : ∀ (p : MPair) (v : Str),
      (match p with
       | MPair.recur v => some v
       | _ => none) = some v → glyphOf p = '🔁' := by
    intro p v hp
    cases p with
    | date g2 v2 => cases hp
    | recur v2 => rfl
    | prio g2 => cases hp
  exact congrArg List.head?
    (perm_length_le_one_eq (hperm.filterMap _) (at_most_one_filterMap hf hnd))

/-- The canonical recurrence view is permutation-invariant. -/
theorem recurOfPairs_perm {ps qs : List MPair} (hperm : ps.Perm qs)
    (hnd : (ps.map glyphOf).Nodup) : recurOfPairs ps = recurOfPairs qs := by
  unfold recurOfPairs
  rw [lookupRecurP_perm hperm hnd]

/-- `hasPrioP` is permutation-invariant. -/
theorem hasPrioP_perm {g : Char} {ps qs : List MPair} (h : ps.Perm qs) :
    hasPrioP g ps = hasPrioP g qs := by
  rw [Bool.eq_iff_iff, hasPrioP_iff, hasPrioP_iff]
  exact h.mem_iff

/-- The canonical priority view is permutation-invariant. -/
theorem prioOfPairs_perm {ps qs : List MPair} (h : ps.Perm qs) :
    prioOfPairs ps = prioOfPairs qs := by
  unfold prioOfPairs
  rw [hasPrioP_perm (g := '🔺') h, hasPrioP_perm (g := '⏫') h,
    hasPrioP_perm (g := '🔼') h, hasPrioP_perm (g := '🔽') h,
    hasPrioP_perm (g := '⏬') h]

/-! The rendered line parses, with the rendered content as task content. -/

/-- Characters of rendered pairs are the separator, a glyph, or value
text. -/
theorem mem_renderPairs_decomp {c : Char} :
    ∀ {ps : List MPair}, c ∈ renderPairs ps →
      c = ' ' ∨ ∃ p ∈ ps, c ∈ renderPair p := by
  intro ps
  induction ps with
  | nil =>
    intro hm
    simp [renderPairs] at hm
  | cons p ps ih =>
    intro hm
    rw [renderPairs_cons] at hm
    rcases List.mem_append.mp hm with hm1 | hm2
    · rcases List.mem_cons.mp hm1 with rfl | hm3
      · exact Or.inl rfl
      · exact Or.inr ⟨p, List.mem_cons_self p ps, hm3⟩
    · rcases ih hm2 with h1 | ⟨q, hq, hq2⟩
      · exact Or.inl h1
      · exact Or.inr ⟨q, List.mem_cons_of_mem p hq, hq2⟩

/-- No character of a well-formed rendered pair is a line terminator. -/
theorem renderPair_noterm {c : Char} {p : MPair} (hp : wfPair p = true)
    (hm : c ∈ renderPair p) : isLineTerm c = false := by
  have notsp : isSpace c = false → isLineTerm c = false := by
    intro hs
    cases ht : isLineTerm c
    · rfl
    · rw [term_imp_space ht] at hs
      cases hs
  cases p with
  | date g v =>
    rcases List.mem_cons.mp hm with rfl | hm2
    · exact notsp (dateGlyph_facts (wfPair_date hp).1).1
    rcases List.mem_cons.mp hm2 with rfl | hm3
    · decide
    · exact notsp (digit_hyphen_not_space (wfDate_chars (wfPair_date hp).2 c hm3))
  | recur v =>
    rcases List.mem_cons.mp hm with rfl | hm2
    · decide
    rcases List.mem_cons.mp hm2 with rfl | hm3
    · decide
    · exact (plain_facts (wfPair_recur hp c hm3)).2
  | prio g =>
    rcases List.mem_cons.mp hm with rfl | hm2
    · exact notsp (prioGlyph_facts (wfPair_prio hp)).1
    · cases hm2

/-- No character of a well-formed rendered content is a line terminator. -/
theorem content_noterm {desc : Str} {ps : List MPair}
    (hdesc : ∀ c ∈ desc, plainChar c = true)
    (hwf : ∀ p ∈ ps, wfPair p = true) :
    ∀ c ∈ desc ++ renderPairs ps, (fun x => !isLineTerm x) c = true := by
  intro c hc
  have hterm : isLineTerm c = false := by
    rcases List.mem_append.mp hc with h1 | h2
    · exact (plain_facts (hdesc c h1)).2
    · rcases mem_renderPairs_decomp h2 with rfl | ⟨p, hp, hmp⟩
      · decide
      · exact renderPair_noterm (hwf p hp) hmp
  simp [hterm]

/-- The rendered line matches the checkbox shape with status `' '` and the
trimmed rendered content. -/
theorem content_render {desc : Str} {ps : List MPair}
    (hdesc : ∀ c ∈ desc, plainChar c = true)
    (hwf : ∀ p ∈ ps, wfPair p = true) :
    matchTaskCheckbox (renderLine desc ps) =
      some (' ', trimChars (desc ++ renderPairs ps)) := by
  have hline : renderLine desc ps =
      '-' :: ' ' :: '[' :: ' ' :: ']' :: ' ' :: (desc ++ renderPairs ps) := rfl
  rw [hline]
  unfold matchTaskCheckbox
  have h1 : (('-' :: ' ' :: '[' :: ' ' :: ']' :: ' ' ::
      (desc ++ renderPairs ps)) : Str).dropWhile isSpace =
      '-' :: ' ' :: '[' :: ' ' :: ']' :: ' ' :: (desc ++ renderPairs ps) := by
    rw [List.dropWhile_cons, if_neg (by decide)]
  rw [h1]
  show (if ('-' == '-' || '-' == '*') = true then _ else none) = _
  rw [if_pos (by decide)]
  have h2 : ((' ' :: '[' :: ' ' :: ']' :: ' ' ::
      (desc ++ renderPairs ps)) : Str).dropWhile isSpace =
      '[' :: ' ' :: ']' :: ' ' :: (desc ++ renderPairs ps) := by
    rw [List.dropWhile_cons, if_pos (by decide), List.dropWhile_cons,
      if_neg (by decide)]
  rw [h2]
  show (if isLineTerm ' ' = true then none else
    some (' ', trimChars (((' ' :: (desc ++ renderPairs ps)) :
      Str).dropWhile isSpace |>.takeWhile (fun x => !isLineTerm x)))) = _
  rw [if_neg (by decide)]
  have h3 : ((' ' :: (desc ++ renderPairs ps)) : Str).dropWhile isSpace =
      (desc ++ renderPairs ps).dropWhile isSpace := by
    rw [List.dropWhile_cons, if_pos (by decide)]
  rw [h3]
  have h4 : ((desc ++ renderPairs ps).dropWhile isSpace).takeWhile
      (fun x => !isLineTerm x) = (desc ++ renderPairs ps).dropWhile isSpace :=
    takeWhile_all_id (fun c hc => content_noterm hdesc hwf c
      (List.dropWhile_subset isSpace hc))
  rw [h4, trim_ltrim]

/-- C8 amended: for every task line made of a checkbox, a plain
description and well-formed marker pairs with at most one pair per marker
kind, every permutation of the pairs parses to a task with the same
extracted date fields, recurrence and priority. -/
theorem c8_marker_extraction_order_independent_amended (desc : Str)
    (ps qs : List MPair) (n : Nat) (hwf : WfLine desc ps)
    (hperm : ps.Perm qs) :
    ∃ t u : ParsedTask,
      parseTaskLine (renderLine desc ps) n = some t ∧
      parseTaskLine (renderLine desc qs) n = some u ∧
      t.dueDate = u.dueDate ∧ t.scheduledDate = u.scheduledDate ∧
      t.startDate = u.startDate ∧ t.createdDate = u.createdDate ∧
      t.doneDate = u.doneDate ∧ t.recurrence = u.recurrence ∧
      t.priority = u.priority := by
  obtain ⟨hdesc, hwfp, hnd⟩ := hwf
  have hwfq : ∀ p ∈ qs, wfPair p = true :=
    fun p hp => hwfp p (hperm.mem_iff.mpr hp)
  have hndq : (qs.map glyphOf).Nodup := (hperm.map glyphOf).nodup_iff.mp hnd
  have hparse : ∀ rs : List MPair, (∀ p ∈ rs, wfPair p = true) →
      parseTaskLine (renderLine desc rs) n = some {
        line := renderLine desc rs
        lineNumber := n
        isDone := (' ' == 'x' || ' ' == 'X')
        description := extractDescription (trimChars (desc ++ renderPairs rs))
        dueDate := extractMatchDate '📅' (trimChars (desc ++ renderPairs rs))
        scheduledDate := extractMatchDate '⏳' (trimChars (desc ++ renderPairs rs))
        startDate := extractMatchDate '🛫' (trimChars (desc ++ renderPairs rs))
        createdDate := extractMatchDate '➕' (trimChars (desc ++ renderPairs rs))
        doneDate := extractMatchDate '✅' (trimChars (desc ++ renderPairs rs))
        recurrence := recStored (trimChars (desc ++ renderPairs rs))
        priority := extractPriority (trimChars (desc ++ renderPairs rs))
        status := ' ' } := by
    intro rs hw
    unfold parseTaskLine
    rw [content_render hdesc hw]
  have hdate : ∀ g ∈ dateGlyphs,
      extractMatchDate g (trimChars (desc ++ renderPairs ps)) =
      extractMatchDate g (trimChars (desc ++ renderPairs qs)) := by
    intro g hg
    have hgs : isSpace g = false := (dateGlyph_facts hg).1
    rw [extract_date_trim hgs, extract_date_trim hgs,
      extract_date_line hg hdesc hwfp, extract_date_line hg hdesc hwfq,
      lookupDateP_perm hperm hnd]
  refine ⟨_, _, hparse ps hwfp, hparse qs hwfq, ?_, ?_, ?_, ?_, ?_, ?_, ?_⟩
  · exact hdate '📅' (by decide)
  · exact hdate '⏳' (by decide)
  · exact hdate '🛫' (by decide)
  · exact hdate '➕' (by decide)
  · exact hdate '✅' (by decide)
  · show recStored (trimChars (desc ++ renderPairs ps)) =
      recStored (trimChars (desc ++ renderPairs qs))
    rw [recStored_trim, recStored_trim, recStored_line hdesc hwfp hnd,
      recStored_line hdesc hwfq hndq, recurOfPairs_perm hperm hnd]
  · show extractPriority (trimChars (desc ++ renderPairs ps)) =
      extractPriority (trimChars (desc ++ renderPairs qs))
    rw [extract_priority_trim, extract_priority_trim,
      extract_priority_line hdesc hwfp, extract_priority_line hdesc hwfq,
      prioOfPairs_perm hperm]

/-- Description for the amended-C8 witness. -/
def c8wDesc : Str := "Call mom".toList

/-- Pairs for the amended-C8 witness: a recurrence pair and the
highest-priority glyph (swapping them leaves the stored recurrence
`weekly`, since the capture stops at `🔺`'s lead surrogate). -/
def c8wPs : List MPair := [.recur "weekly".toList, .prio '🔺']

/-- The same pairs, permuted. -/
def c8wQs : List MPair := [.prio '🔺', .recur "weekly".toList]

/-- Witness for the amended C8 on a concrete line and permutation. -/
theorem c8_marker_extraction_order_independent_amended_witness :
    ∃ t u : ParsedTask,
      parseTaskLine (renderLine c8wDesc c8wPs) 0 = some t ∧
      parseTaskLine (renderLine c8wDesc c8wQs) 0 = some u ∧
      t.dueDate = u.dueDate ∧ t.scheduledDate = u.scheduledDate ∧
      t.startDate = u.startDate ∧ t.createdDate = u.createdDate ∧
      t.doneDate = u.doneDate ∧ t.recurrence = u.recurrence ∧
      t.priority = u.priority :=
  c8_marker_extraction_order_independent_amended c8wDesc c8wPs c8wQs 0
    ⟨by decide, by decide, by decide⟩ (by decide)

end TaskPropertySync
